import Mathlib

/-!
Verification of the protobuf wire-decoding core of `serde-protobuf`
(files `src/value/borrowed.rs`, `src/de.rs`, `src/util.rs`, `src/arraypool.rs`).

The Rust code is shallowly embedded:

* machine integers become `Nat`/`Int` with explicit wrap-around where the
  source casts (`as u32`, `as i32`);
* `f32`/`f64` payloads are represented by their raw little-endian bit
  pattern (a `Nat`).  The decoder never computes with floats, it only
  passes the bits through, so this representation is exact;
* borrowed byte/string slices become the byte list they denote; the UTF-8
  validation performed by the external wire reader for `string` fields is
  not modelled (string payloads are raw byte spans);
* fallible Rust code returning `Result` becomes `Except Failure`; a Rust
  `panic!` is modelled by the distinct outcome `Failure.panicked`, so that
  "returns a typed error" and "panics" are distinguishable;
* the descriptor registry (an external collaborator of this core) is
  modelled as plain data: message descriptors hold field descriptors whose
  message/enum types are indices into the registry, mirroring how the
  source resolves `FieldType::Message(..)`/`FieldType::Enum(..)` through
  `Descriptors`;
* the buffer pool (`ArrayPool`) is modelled by the sizes of its three
  free lists plus instrumentation counters for acquire/release events
  (pooled buffers are always cleared before storage, so their contents
  never matter, only their number);
* the recursive lazy traversal is made total with an explicit fuel
  parameter; running out of fuel is the distinct outcome
  `Failure.outOfFuel` and never occurs for sufficiently large fuel.
-/

namespace SerdeProtobuf

/-- Typed decode errors of the crate's `Error` enum (module `error`, an
external collaborator; only the variants reachable from the decode core
are modelled). -/
inductive Error where
  | UnknownMessage (name : String)
  | UnknownEnum (name : String)
  | UnknownEnumValue (value : Int)
  | Custom (message : String)
  | MalformedInput
deriving DecidableEq, Repr

/-- Outcome of a fallible step: a typed error returned as `Err`, a Rust
`panic`, or exhaustion of the embedding's fuel (an artifact of making the
recursion total; never happens for sufficiently large fuel). -/
inductive Failure where
  | err (e : Error)
  | panicked (message : String)
  | outOfFuel
deriving DecidableEq, Repr

/-- Owned default values (`value::owned::Value`, the external owned-value
representation used solely to store precomputed defaults).  Exactly the
variants consumed by `visit_value` in `de.rs` are modelled; float payloads
are raw bit patterns. -/
inductive OwnedValue where
  | Bool (b : Bool)
  | I32 (v : Int)
  | I64 (v : Int)
  | U32 (v : Nat)
  | U64 (v : Nat)
  | F32 (bits : Nat)
  | F64 (bits : Nat)
  | Bytes (v : List Nat)
  | String (v : List Nat)
  | Enum (v : Int)
  | Message
deriving DecidableEq, Repr

/-- Field labels of the descriptor interface (`FieldLabel`). -/
inductive FieldLabel where
  | Required
  | Optional
  | Repeated
deriving DecidableEq, Repr

/-- Resolved field types (`FieldType<'a>` as returned by
`FieldDescriptor::field_type(&Descriptors)`).  `Message`/`Enum` carry the
index of the resolved descriptor inside the registry instead of a Rust
reference; `UnresolvedMessage`/`UnresolvedEnum` model types not yet linked
in the registry. -/
inductive FieldType where
  | UnresolvedMessage (name : String)
  | UnresolvedEnum (name : String)
  | Double
  | Float
  | Int64
  | UInt64
  | Int32
  | Fixed64
  | Fixed32
  | Bool
  | String
  | Group
  | Bytes
  | UInt32
  | Enum (idx : Nat)
  | SFixed32
  | SFixed64
  | SInt32
  | SInt64
  | Message (idx : Nat)
deriving DecidableEq, Repr

/-- One value of an enum descriptor (number and symbolic name). -/
structure EnumValueDescriptor where
  number : Int
  name : String
deriving DecidableEq, Repr

/-- Enum descriptor: the declared values, looked up by number. -/
structure EnumDescriptor where
  values : List EnumValueDescriptor
deriving DecidableEq, Repr

/-- `EnumDescriptor::value_by_number`: first declared value with the given
number, if any. -/
def EnumDescriptor.value_by_number (d : EnumDescriptor) (value : Int) :
    Option EnumValueDescriptor :=
  d.values.find? (fun v => v.number == value)

/-- Field descriptor of the external registry: field number (tag), name,
label, resolved type and the optional precomputed default. -/
structure FieldDescriptor where
  number : Int
  name : String
  label : FieldLabel
  typeRef : FieldType
  defaultValue : Option OwnedValue
deriving DecidableEq, Repr

/-- `FieldDescriptor::field_label`. -/
def FieldDescriptor.field_label (d : FieldDescriptor) : FieldLabel := d.label

/-- `FieldDescriptor::is_repeated`. -/
def FieldDescriptor.is_repeated (d : FieldDescriptor) : Bool :=
  d.label == FieldLabel.Repeated

/-- `FieldDescriptor::default_value`. -/
def FieldDescriptor.default_value (d : FieldDescriptor) : Option OwnedValue :=
  d.defaultValue

/-- Message descriptor: the ordered list of declared fields. -/
structure MessageDescriptor where
  fields : List FieldDescriptor
deriving DecidableEq, Repr

/-- The descriptor registry (`Descriptors`): resolved message and enum
descriptors, addressed by index. -/
structure Descriptors where
  messages : List MessageDescriptor
  enums : List EnumDescriptor
deriving DecidableEq, Repr

/-- Registry lookup of a resolved message descriptor by index (stands for
following the Rust reference stored in `FieldType::Message`). -/
def Descriptors.getMessage (ds : Descriptors) (idx : Nat) : MessageDescriptor :=
  ds.messages.getD idx ⟨[]⟩

/-- Registry lookup of a resolved enum descriptor by index (stands for
following the Rust reference stored in `FieldType::Enum`). -/
def Descriptors.getEnum (ds : Descriptors) (idx : Nat) : EnumDescriptor :=
  ds.enums.getD idx ⟨[]⟩

/-- `FieldDescriptor::field_type(&Descriptors)`: the resolved type.  In
this embedding resolution against the registry is pre-applied in
`typeRef`, so the lookup is the identity on it. -/
def FieldDescriptor.field_type (d : FieldDescriptor) (_ds : Descriptors) : FieldType :=
  d.typeRef

/-- Rust `as u32` cast of an `i32` field number (`d.number() as u32`). -/
def u32cast (i : Int) : Nat := (i % (2 ^ 32 : Int)).toNat

/-- Two's-complement reinterpretation of the low 32 bits as an `i32`. -/
def toI32 (n : Nat) : Int :=
  let m : Nat := n % 2 ^ 32
  if m < 2 ^ 31 then (m : Int) else (m : Int) - 2 ^ 32

/-- Two's-complement reinterpretation of the low 64 bits as an `i64`. -/
def toI64 (n : Nat) : Int :=
  let m : Nat := n % 2 ^ 64
  if m < 2 ^ 63 then (m : Int) else (m : Int) - 2 ^ 64

/-- `SingleFieldValue<'input>` from `value/borrowed.rs`.  Borrowed slices
are the byte lists they denote; `LazyMessage` stores the registry index of
the submessage descriptor together with the still-undecoded byte span. -/
inductive SingleFieldValue where
  | Bool (b : Bool)
  | I32 (v : Int)
  | I64 (v : Int)
  | U32 (v : Nat)
  | U64 (v : Nat)
  | F32 (bits : Nat)
  | F64 (bits : Nat)
  | Bytes (v : List Nat)
  | String (v : List Nat)
  | Enum (v : Int)
  | LazyMessage (descriptorIdx : Nat) (data : List Nat)
  | Null
  | BorrowedDefaultValue (inner : OwnedValue)
deriving DecidableEq, Repr

/-- `RepeatedFieldValue<'input> = Vec<SingleFieldValue<'input>>`. -/
abbrev RepeatedFieldValue := List SingleFieldValue

/-- `Field<'input, V>`: a decoded record for one declared field. -/
structure Field (V : Type) where
  descriptor : FieldDescriptor
  value : V
  tag : Nat
deriving DecidableEq, Repr

/-- `GeneralizedFieldValue<'input>`: singular or repeated payload, used by
the visitor bridge to treat both record kinds uniformly. -/
inductive GeneralizedFieldValue where
  | Single (v : SingleFieldValue)
  | Repeated (v : RepeatedFieldValue)
deriving DecidableEq, Repr

/-- `LazliyParsedMessage<'input>` (name kept from the source, including
its spelling): the decoded message. -/
structure LazliyParsedMessage where
  single_fields : List (Field SingleFieldValue)
  repeated_fields : List (Field RepeatedFieldValue)
deriving DecidableEq, Repr

/-- `CurrentMessageDescriptors<'input>` from `de.rs`. -/
structure CurrentMessageDescriptors where
  current_descriptor : MessageDescriptor
  all_descriptors : Descriptors
deriving DecidableEq, Repr

/-- The buffer pool (`arraypool.rs`).  A pooled vector is always cleared
before being stored, so only the number of stored buffers per shape is
observable; the three `*_pool` fields are those free-list sizes.  The
`acquired*`/`released*` fields are instrumentation counters (not present
in the source) counting `get_*`/`return_*` calls, used to state the
acquire/release contract. -/
structure ArrayPool where
  single_field_val_vec_pool : Nat
  field_vec_pool : Nat
  repeated_field_vec_pool : Nat
  acquiredSingle : Nat
  releasedSingle : Nat
  acquiredField : Nat
  releasedField : Nat
  acquiredRepeated : Nat
  releasedRepeated : Nat
deriving DecidableEq, Repr

/-- `ArrayPool::new`. -/
def ArrayPool.new : ArrayPool := ⟨0, 0, 0, 0, 0, 0, 0, 0, 0⟩

/-- `ArrayPool::get_single_field_val_vec`: pop a recycled buffer if one is
stored (it is empty), otherwise a fresh empty one. -/
def ArrayPool.get_single_field_val_vec (p : ArrayPool) :
    RepeatedFieldValue × ArrayPool :=
  ([], { p with
          single_field_val_vec_pool := p.single_field_val_vec_pool - 1,
          acquiredSingle := p.acquiredSingle + 1 })

/-- `ArrayPool::return_single_field_val_vec`: clear and store the buffer. -/
def ArrayPool.return_single_field_val_vec (p : ArrayPool)
    (_v : RepeatedFieldValue) : ArrayPool :=
  { p with
      single_field_val_vec_pool := p.single_field_val_vec_pool + 1,
      releasedSingle := p.releasedSingle + 1 }

/-- `ArrayPool::get_field_vec`. -/
def ArrayPool.get_field_vec (p : ArrayPool) :
    List (Field SingleFieldValue) × ArrayPool :=
  ([], { p with
          field_vec_pool := p.field_vec_pool - 1,
          acquiredField := p.acquiredField + 1 })

/-- `ArrayPool::return_field_vec`. -/
def ArrayPool.return_field_vec (p : ArrayPool)
    (_v : List (Field SingleFieldValue)) : ArrayPool :=
  { p with
      field_vec_pool := p.field_vec_pool + 1,
      releasedField := p.releasedField + 1 }

/-- `ArrayPool::get_repeated_field_vec`. -/
def ArrayPool.get_repeated_field_vec (p : ArrayPool) :
    List (Field RepeatedFieldValue) × ArrayPool :=
  ([], { p with
          repeated_field_vec_pool := p.repeated_field_vec_pool - 1,
          acquiredRepeated := p.acquiredRepeated + 1 })

/-- `ArrayPool::return_repeated_field_vec`. -/
def ArrayPool.return_repeated_field_vec (p : ArrayPool)
    (_v : List (Field RepeatedFieldValue)) : ArrayPool :=
  { p with
      repeated_field_vec_pool := p.repeated_field_vec_pool + 1,
      releasedRepeated := p.releasedRepeated + 1 }

/-- The external wire reader (`quick_protobuf::BytesReader`), modelled
from the spec's description of the wire format (varint tags, LEB128
varints, little-endian fixed32/64, length-delimited payloads): a cursor
`start` and an exclusive bound `endPos` into the byte buffer that every
read method receives explicitly. -/
structure BytesReader where
  start : Nat
  endPos : Nat
deriving DecidableEq, Repr

/-- `BytesReader::from_bytes`. -/
def BytesReader.from_bytes (bytes : List Nat) : BytesReader :=
  ⟨0, bytes.length⟩

/-- `BytesReader::is_eof`. -/
def BytesReader.is_eof (r : BytesReader) : Bool :=
  r.start ≥ r.endPos

/-- Read one byte, advancing the cursor; truncation is malformed input. -/
def readU8 (bytes : List Nat) (r : BytesReader) :
    Except Failure (Nat × BytesReader) :=
  if r.start < r.endPos then
    .ok (bytes.getD r.start 0, ⟨r.start + 1, r.endPos⟩)
  else
    .error (.err .MalformedInput)

/-- LEB128 varint accumulation: at most `rem` further bytes, `shift` bits
already consumed into `acc`.  A varint longer than 10 bytes is malformed. -/
def readVarintAux (bytes : List Nat) : Nat → BytesReader → Nat → Nat →
    Except Failure (Nat × BytesReader)
  | 0, _, _, _ => .error (.err .MalformedInput)
  | rem + 1, r, shift, acc => do
    let (b, r') ← readU8 bytes r
    let acc' := acc + (b % 128) * 2 ^ shift
    if b < 128 then
      .ok (acc' % 2 ^ 64, r')
    else
      readVarintAux bytes rem r' (shift + 7) acc'

/-- `read_varint64`: a full 64-bit LEB128 varint. -/
def readVarint (bytes : List Nat) (r : BytesReader) :
    Except Failure (Nat × BytesReader) :=
  readVarintAux bytes 10 r 0 0

/-- `read_varint32`: the varint truncated to 32 bits. -/
def readVarint32 (bytes : List Nat) (r : BytesReader) :
    Except Failure (Nat × BytesReader) := do
  let (n, r') ← readVarint bytes r
  .ok (n % 2 ^ 32, r')

/-- `BytesReader::next_tag`: the varint-encoded wire tag. -/
def next_tag (bytes : List Nat) (r : BytesReader) :
    Except Failure (Nat × BytesReader) :=
  readVarint32 bytes r

/-- Read `n` little-endian bytes as an unsigned value. -/
def readFixed (bytes : List Nat) (r : BytesReader) (n : Nat) :
    Except Failure (Nat × BytesReader) :=
  if r.start + n ≤ r.endPos then
    .ok ((List.range n).foldr
          (fun i acc => acc * 256 + bytes.getD (r.start + i) 0) 0,
        ⟨r.start + n, r.endPos⟩)
  else
    .error (.err .MalformedInput)

/-- `read_fixed32`. -/
def read_fixed32 (bytes : List Nat) (r : BytesReader) :
    Except Failure (Nat × BytesReader) :=
  readFixed bytes r 4

/-- `read_fixed64`. -/
def read_fixed64 (bytes : List Nat) (r : BytesReader) :
    Except Failure (Nat × BytesReader) :=
  readFixed bytes r 8

/-- `read_bytes`: length-delimited payload, returned as the borrowed
sub-span. -/
def read_bytes (bytes : List Nat) (r : BytesReader) :
    Except Failure (List Nat × BytesReader) := do
  let (len, r') ← readVarint32 bytes r
  if r'.start + len ≤ r'.endPos then
    .ok ((bytes.drop r'.start).take len, ⟨r'.start + len, r'.endPos⟩)
  else
    .error (.err .MalformedInput)

/-- `read_unknown`: consume and discard one field's payload according to
the wire type encoded in the tag; group wire types and unknown wire types
are reader errors. -/
def read_unknown (bytes : List Nat) (r : BytesReader) (tag : Nat) :
    Except Failure BytesReader :=
  match tag % 8 with
  | 0 => do
    let (_, r') ← readVarint bytes r
    .ok r'
  | 1 => do
    let (_, r') ← read_fixed64 bytes r
    .ok r'
  | 2 => do
    let (_, r') ← read_bytes bytes r
    .ok r'
  | 5 => do
    let (_, r') ← read_fixed32 bytes r
    .ok r'
  | _ => .error (.err .MalformedInput)

/-- Swap the elements at positions `i` and `j` (`slice.swap`); out-of-range
indices leave the list unchanged (the source only swaps in-range indices). -/
def listSwap (l : List α) (i j : Nat) : List α :=
  match l[i]?, l[j]? with
  | some a, some b => (l.set i b).set j a
  | _, _ => l

/-- The while loop of `retain_last_by_key` (`util.rs`), with the mutable
slice passed as explicit state.  `fuel` bounds the iteration count and is
instantiated with the slice length, which the loop never exceeds since
`read_idx` grows by one per iteration. -/
def retainLastLoop [DecidableEq K] (key_fn : α → K) :
    Nat → List α → K → Nat → Nat → Nat → List α × Nat × Nat
  | 0, v, _, write_idx, move_from_idx, _ => (v, write_idx, move_from_idx)
  | fuel + 1, v, current_key, write_idx, move_from_idx, read_idx =>
    if read_idx < v.length then
      match v[read_idx]? with
      | some x =>
        if key_fn x ≠ current_key then
          let v' := if move_from_idx ≠ write_idx then listSwap v move_from_idx write_idx else v
          retainLastLoop key_fn fuel v' (key_fn x) (write_idx + 1) (move_from_idx + 1) (read_idx + 1)
        else
          retainLastLoop key_fn fuel v current_key write_idx (move_from_idx + 1) (read_idx + 1)
      | none => (v, write_idx, move_from_idx)
    else (v, write_idx, move_from_idx)

/-- `retain_last_by_key` (`util.rs`): collapse consecutive runs of equal
keys in place, keeping only the last element of each run. -/
def retain_last_by_key [DecidableEq K] (slice : List α) (key_fn : α → K) : List α :=
  match slice with
  | [] => slice
  | x :: _ =>
    let st := retainLastLoop key_fn slice.length slice (key_fn x) 0 0 1
    let v := st.1
    let write_idx := st.2.1
    let move_from_idx := st.2.2
    let v' := if move_from_idx ≠ write_idx then listSwap v move_from_idx write_idx else v
    v'.take (write_idx + 1)

/-- Functional characterization of `retain_last_by_key`: keep an element
only when the next element has a different key (the last element is always
kept). -/
def dedupLastAdj [DecidableEq K] (key_fn : α → K) : List α → List α
  | [] => []
  | [x] => [x]
  | x :: y :: rest =>
    if key_fn x = key_fn y then dedupLastAdj key_fn (y :: rest)
    else x :: dedupLastAdj key_fn (y :: rest)

/-- Stable insertion of one element into a key-sorted list: skip elements
with a strictly smaller key, so that an inserted element lands after every
element with an equal or smaller key already present. -/
def orderedInsertByKey (key_fn : α → Nat) (x : α) : List α → List α
  | [] => [x]
  | y :: ys => if key_fn x ≤ key_fn y then x :: y :: ys else y :: orderedInsertByKey key_fn x ys

/-- `Vec::sort_by_key` is a stable sort; any stable sort has the same
observable result, so it is modelled by stable insertion sort. -/
def sort_by_key (key_fn : α → Nat) : List α → List α
  | [] => []
  | x :: xs => orderedInsertByKey key_fn x (sort_by_key key_fn xs)

/-- `SingleFieldValue::parse_from_reader` (`value/borrowed.rs`): decode
exactly one value of the given resolved field type from the wire.
Unresolved types and groups are typed errors; message-typed fields store
the borrowed span without recursing. -/
def SingleFieldValue.parse_from_reader (r : BytesReader) (bytes : List Nat)
    (field_type : FieldType) :
    Except Failure (SingleFieldValue × BytesReader) :=
  match field_type with
  | .UnresolvedMessage name => .error (.err (.UnknownMessage name))
  | .UnresolvedEnum name => .error (.err (.UnknownEnum name))
  | .Double => do
    let (bits, r') ← read_fixed64 bytes r
    .ok (.F64 bits, r')
  | .Float => do
    let (bits, r') ← read_fixed32 bytes r
    .ok (.F32 bits, r')
  | .Int64 => do
    let (n, r') ← readVarint bytes r
    .ok (.I64 (toI64 n), r')
  | .UInt64 => do
    let (n, r') ← readVarint bytes r
    .ok (.U64 (n % 2 ^ 64), r')
  | .Int32 => do
    let (n, r') ← readVarint32 bytes r
    .ok (.I32 (toI32 n), r')
  | .Fixed64 => do
    let (n, r') ← read_fixed64 bytes r
    .ok (.U64 n, r')
  | .Fixed32 => do
    let (n, r') ← read_fixed32 bytes r
    .ok (.U32 n, r')
  | .Bool => do
    let (n, r') ← readVarint bytes r
    .ok (.Bool (n ≠ 0), r')
  | .String => do
    let (s, r') ← read_bytes bytes r
    .ok (.String s, r')
  | .Group => .error (.err (.Custom "Groups are not supported"))
  | .Bytes => do
    let (s, r') ← read_bytes bytes r
    .ok (.Bytes s, r')
  | .UInt32 => do
    let (n, r') ← readVarint32 bytes r
    .ok (.U32 n, r')
  | .Enum _ => do
    let (n, r') ← readVarint32 bytes r
    .ok (.Enum (toI32 n), r')
  | .SFixed32 => do
    let (n, r') ← read_fixed32 bytes r
    .ok (.I32 (toI32 n), r')
  | .SFixed64 => do
    let (n, r') ← read_fixed64 bytes r
    .ok (.I64 (toI64 n), r')
  | .SInt32 => do
    let (n, r') ← readVarint32 bytes r
    .ok (.I32 (if n % 2 = 0 then ((n / 2 : Nat) : Int) else -((n / 2 : Nat) : Int) - 1), r')
  | .SInt64 => do
    let (n, r') ← readVarint bytes r
    .ok (.I64 (if n % 2 = 0 then ((n / 2 : Nat) : Int) else -((n / 2 : Nat) : Int) - 1), r')
  | .Message idx => do
    let (data, r') ← read_bytes bytes r
    .ok (.LazyMessage idx data, r')

/-- `compute_default_value_for_field` (`value/borrowed.rs`): the record a
declared non-repeated field is seeded with when building a message.
Precedence as in the source: explicit descriptor default, else `Null` for
optional labels, else the type's zero value.  The `panic!` calls of the
source (unresolved types and groups in the zero-value branch) become
`Failure.panicked`. -/
def compute_default_value_for_field (field_descriptor : FieldDescriptor)
    (descriptors : Descriptors) :
    Except Failure (Field SingleFieldValue) :=
  let value : Except Failure SingleFieldValue :=
    match field_descriptor.default_value with
    | some inner => .ok (SingleFieldValue.BorrowedDefaultValue inner)
    | none =>
      if field_descriptor.field_label = FieldLabel.Optional then
        .ok SingleFieldValue.Null
      else
        match field_descriptor.field_type descriptors with
        | .UnresolvedMessage _ => .error (.panicked "unresolved message default value")
        | .UnresolvedEnum _ => .error (.panicked "unresolved enum default value")
        | .Double => .ok (.F64 0)
        | .Float => .ok (.F32 0)
        | .Int64 => .ok (.I64 0)
        | .UInt64 => .ok (.U64 0)
        | .Int32 => .ok (.I32 0)
        | .Fixed64 => .ok (.U64 0)
        | .Fixed32 => .ok (.U32 0)
        | .Bool => .ok (.Bool false)
        | .String => .ok (.String [])
        | .Group => .error (.panicked "group default value")
        | .Message _ => .ok .Null
        | .Bytes => .ok (.Bytes [])
        | .UInt32 => .ok (.U32 0)
        | .Enum _ => .ok (.Enum 0)
        | .SFixed32 => .ok (.I32 0)
        | .SFixed64 => .ok (.I64 0)
        | .SInt32 => .ok (.I32 0)
        | .SInt64 => .ok (.I64 0)
  match value with
  | .error e => .error e
  | .ok value =>
    .ok { tag := u32cast field_descriptor.number
          descriptor := field_descriptor
          value := value }

/-- The `single_fields.extend(..)` seeding step of `parse_from_reader`:
one default-valued record per declared non-repeated field, in declaration
order; a `panic!` inside `compute_default_value_for_field` aborts it. -/
def seedSingles (descriptors : Descriptors) :
    List FieldDescriptor → Except Failure (List (Field SingleFieldValue))
  | [] => .ok []
  | d :: rest =>
    if d.is_repeated then seedSingles descriptors rest
    else
      match compute_default_value_for_field d descriptors with
      | .error e => .error e
      | .ok f =>
        match seedSingles descriptors rest with
        | .error e => .error e
        | .ok fs => .ok (f :: fs)

/-- The `repeated_fields.extend(..)` seeding step of `parse_from_reader`:
one record with a pooled empty value buffer per declared repeated field,
in declaration order. -/
def seedRepeated (pool : ArrayPool) :
    List FieldDescriptor → List (Field RepeatedFieldValue) × ArrayPool
  | [] => ([], pool)
  | d :: rest =>
    if d.is_repeated then
      let (vec, pool1) := pool.get_single_field_val_vec
      let (fs, pool2) := seedRepeated pool1 rest
      ({ value := vec, tag := u32cast d.number, descriptor := d } :: fs, pool2)
    else seedRepeated pool rest

/-- `repeated_fields.iter_mut().find(|f| f.tag == field_number)` followed
by `v.value.push(value)`: append to the first record with the given tag,
or `none` when no record matches. -/
def pushToFirstMatch (tag : Nat) (value : SingleFieldValue) :
    List (Field RepeatedFieldValue) → Option (List (Field RepeatedFieldValue))
  | [] => none
  | f :: fs =>
    if f.tag = tag then some ({ f with value := f.value ++ [value] } :: fs)
    else (pushToFirstMatch tag value fs).map (f :: ·)

/-- The scan loop of `LazliyParsedMessage::parse_from_reader`: read tags
until the reader is exhausted, decoding declared fields (appending
repeated occurrences to their record, pushing transient duplicates for
singular ones) and skipping unknown field numbers per wire type.  `fuel`
bounds the iteration count; each iteration consumes at least the tag
byte, so `bytes.length + 1` is always sufficient. -/
def parseLoop (descriptors : CurrentMessageDescriptors) (bytes : List Nat) :
    Nat → BytesReader → List (Field SingleFieldValue) →
    List (Field RepeatedFieldValue) → ArrayPool →
    Except Failure
      (List (Field SingleFieldValue) × List (Field RepeatedFieldValue) × BytesReader)
      × ArrayPool
  | 0, reader, single_fields, repeated_fields, pool =>
    if reader.is_eof then (.ok (single_fields, repeated_fields, reader), pool)
    else (.error .outOfFuel, pool)
  | fuel + 1, reader, single_fields, repeated_fields, pool =>
    if reader.is_eof then (.ok (single_fields, repeated_fields, reader), pool)
    else
        match next_tag bytes reader with
        | .error e => (.error e, pool)
        | .ok (tag, r1) =>
          let field_number := tag >>> 3
          match descriptors.current_descriptor.fields.find?
              (fun f => f.number == (field_number : Int)) with
          | some descriptor =>
            match SingleFieldValue.parse_from_reader r1 bytes
                (descriptor.field_type descriptors.all_descriptors) with
            | .error e => (.error e, pool)
            | .ok (value, r2) =>
              if descriptor.is_repeated then
                match pushToFirstMatch field_number value repeated_fields with
                | some repeated_fields' =>
                  parseLoop descriptors bytes fuel r2 single_fields repeated_fields' pool
                | none =>
                  let (vec, pool1) := pool.get_single_field_val_vec
                  parseLoop descriptors bytes fuel r2 single_fields
                    (repeated_fields ++
                      [{ descriptor := descriptor, tag := field_number,
                         value := vec ++ [value] }]) pool1
              else
                parseLoop descriptors bytes fuel r2
                  (single_fields ++
                    [{ descriptor := descriptor, tag := field_number, value := value }])
                  repeated_fields pool
          | none =>
            match read_unknown bytes r1 tag with
            | .error e => (.error e, pool)
            | .ok r2 => parseLoop descriptors bytes fuel r2 single_fields repeated_fields pool

/-- `LazliyParsedMessage::parse_from_reader` (`value/borrowed.rs`):
acquire the two record buffers, seed defaults and empty repeated records,
run the scan loop, then post-process the singular records with the stable
sort by tag and `retain_last_by_key`. -/
def LazliyParsedMessage.parse_from_reader (fuel : Nat) (reader : BytesReader)
    (bytes : List Nat) (descriptors : CurrentMessageDescriptors)
    (pool : ArrayPool) : Except Failure (LazliyParsedMessage × BytesReader) × ArrayPool :=
  let (single_fields0, pool1) := pool.get_field_vec
  let (repeated_fields0, pool2) := pool1.get_repeated_field_vec
  match seedSingles descriptors.all_descriptors descriptors.current_descriptor.fields with
  | .error e => (.error e, pool2)
  | .ok seeded =>
    let (reps, pool3) := seedRepeated pool2 descriptors.current_descriptor.fields
    match parseLoop descriptors bytes fuel reader (single_fields0 ++ seeded)
        (repeated_fields0 ++ reps) pool3 with
    | (.error e, pool4) => (.error e, pool4)
    | (.ok (single_fields, repeated_fields, r'), pool4) =>
      let single_fields := sort_by_key (fun f => f.tag) single_fields
      let single_fields := retain_last_by_key single_fields (fun f => f.tag)
      (.ok ({ single_fields := single_fields, repeated_fields := repeated_fields }, r'),
        pool4)

/-- The value received by the external generic visitor, as a tree: one
constructor per visitor entry point driven by the bridge (`visit_bool`,
`visit_i32`, ..., `visit_borrowed_bytes`/`visit_borrowed_str`, the
`visit_str` call carrying an enum symbol, `visit_none`, `visit_some`,
`visit_map`, `visit_seq`). -/
inductive VisitValue where
  | bool (b : Bool)
  | i32 (v : Int)
  | i64 (v : Int)
  | u32 (v : Nat)
  | u64 (v : Nat)
  | f32 (bits : Nat)
  | f64 (bits : Nat)
  | bytes (v : List Nat)
  | str (v : List Nat)
  | enumStr (name : String)
  | noneV
  | someV (v : VisitValue)
  | mapV (entries : List (String × VisitValue))
  | seqV (elems : List VisitValue)

/-- `visit_enum_value` (`de.rs`): look up the symbolic name of the stored
number in the field's enum type; an unmatched number is the typed
`UnknownEnumValue` error, a non-enum field type the wire-mismatch error. -/
def visit_enum_value (value : Int) (field_descriptor : FieldDescriptor)
    (all_descriptors : Descriptors) : Except Failure VisitValue :=
  match field_descriptor.field_type all_descriptors with
  | .Enum idx =>
    match (all_descriptors.getEnum idx).value_by_number value with
    | some enum_descriptor => .ok (.enumStr enum_descriptor.name)
    | none => .error (.err (.UnknownEnumValue value))
  | _ => .error (.err (.Custom "field and wire type mismatch"))

/-- `visit_value` (`de.rs`), parameterized by the nested-decode function
`inner` that `SingleFieldValue::LazyMessage` re-enters (the recursive tie
is made in `innerDeserializeAny`).  Scalars pass through untouched, `Null`
is `visit_none`, borrowed defaults are unwrapped (a message-valued default
is the source's `panic!`). -/
def visitValueGo
    (inner : MessageDescriptor → List Nat → ArrayPool → Except Failure VisitValue × ArrayPool)
    (all_descriptors : Descriptors) (field_descriptor : FieldDescriptor)
    (value : SingleFieldValue) (pool : ArrayPool) :
    Except Failure VisitValue × ArrayPool :=
  match value with
  | .Bool v => (.ok (.bool v), pool)
  | .I32 v => (.ok (.i32 v), pool)
  | .I64 v => (.ok (.i64 v), pool)
  | .U32 v => (.ok (.u32 v), pool)
  | .U64 v => (.ok (.u64 v), pool)
  | .F32 v => (.ok (.f32 v), pool)
  | .F64 v => (.ok (.f64 v), pool)
  | .Bytes v => (.ok (.bytes v), pool)
  | .String v => (.ok (.str v), pool)
  | .Enum e => (visit_enum_value e field_descriptor all_descriptors, pool)
  | .LazyMessage idx data => inner (all_descriptors.getMessage idx) data pool
  | .Null => (.ok .noneV, pool)
  | .BorrowedDefaultValue w =>
    match w with
    | .Bool b => (.ok (.bool b), pool)
    | .I32 v => (.ok (.i32 v), pool)
    | .I64 v => (.ok (.i64 v), pool)
    | .U32 v => (.ok (.u32 v), pool)
    | .U64 v => (.ok (.u64 v), pool)
    | .F32 v => (.ok (.f32 v), pool)
    | .F64 v => (.ok (.f64 v), pool)
    | .Bytes b => (.ok (.bytes b), pool)
    | .String s => (.ok (.str s), pool)
    | .Enum e => (visit_enum_value e field_descriptor all_descriptors, pool)
    | .Message => (.error (.panicked "unsupported default message value"), pool)

/-- `RepeatedValueVisitor` (`de.rs`): deserialize each stored value in
stored order, threading the pool; the first failure short-circuits. -/
def seqFold
    (visit : SingleFieldValue → ArrayPool → Except Failure VisitValue × ArrayPool) :
    List SingleFieldValue → ArrayPool → Except Failure (List VisitValue) × ArrayPool
  | [], pool => (.ok [], pool)
  | v :: vs, pool =>
    match visit v pool with
    | (.error e, pool1) => (.error e, pool1)
    | (.ok w, pool1) =>
      match seqFold visit vs pool1 with
      | (.error e, pool2) => (.error e, pool2)
      | (.ok ws, pool2) => (.ok (w :: ws), pool2)

/-- The repeated-records tail of the `MessageMapVisitor` iteration: each
repeated record becomes a `visit_seq` of its stored values under the
field's declared name, and its value buffer is returned to the pool after
the visit regardless of success (`next_value_seed`).  Records not reached
because of an earlier failure are dropped without a pool return (the
source's `drain` iterators). -/
def repsFold
    (visit : FieldDescriptor → SingleFieldValue → ArrayPool →
      Except Failure VisitValue × ArrayPool) :
    List (Field RepeatedFieldValue) → ArrayPool →
    Except Failure (List (String × VisitValue)) × ArrayPool
  | [], pool => (.ok [], pool)
  | r :: repeateds, pool =>
    let (res, pool1) := seqFold (visit r.descriptor) r.value pool
    let pool2 := pool1.return_single_field_val_vec r.value
    match res with
    | .error e => (.error e, pool2)
    | .ok ws =>
      match repsFold visit repeateds pool2 with
      | (.error e, pool3) => (.error e, pool3)
      | (.ok entries, pool3) =>
        (.ok ((r.descriptor.name, VisitValue.seqV ws) :: entries), pool3)

/-- `MessageMapVisitor` with `MessageFieldDeserializer` (`de.rs`): emit
all singular records first (a singular record whose label is optional is
wrapped in `visit_some` before its value is resolved), then all repeated
records; the key is always the field's declared name. -/
def fieldsFold
    (visit : FieldDescriptor → SingleFieldValue → ArrayPool →
      Except Failure VisitValue × ArrayPool) :
    List (Field SingleFieldValue) → List (Field RepeatedFieldValue) → ArrayPool →
    Except Failure (List (String × VisitValue)) × ArrayPool
  | s :: singles, repeateds, pool =>
    let step :=
      if s.descriptor.field_label = FieldLabel.Optional then
        match visit s.descriptor s.value pool with
        | (.error e, pool1) => (.error e, pool1)
        | (.ok w, pool1) => (.ok (VisitValue.someV w), pool1)
      else visit s.descriptor s.value pool
    match step with
    | (.error e, pool1) => (.error e, pool1)
    | (.ok w, pool1) =>
      match fieldsFold visit singles repeateds pool1 with
      | (.error e, pool2) => (.error e, pool2)
      | (.ok entries, pool2) => (.ok ((s.descriptor.name, w) :: entries), pool2)
  | [], repeateds, pool => repsFold visit repeateds pool

/-- `InnerMessageDeserializer::deserialize_any` (`de.rs`): parse the whole
input span into a `LazliyParsedMessage`, drive the map visitor over its
records, then return the two record buffers to the pool (also when the
visit failed); a parse failure propagates before any buffer is returned.
The `fuel` argument bounds the lazy submessage recursion depth only. -/
def innerDeserializeAny :
    Nat → Descriptors → MessageDescriptor → List Nat → ArrayPool →
    Except Failure VisitValue × ArrayPool
  | 0, _, _, _, pool => (.error .outOfFuel, pool)
  | fuel + 1, all_descriptors, current_descriptor, input, pool =>
    let reader := BytesReader.from_bytes input
    match LazliyParsedMessage.parse_from_reader (input.length + 1) reader input
        ⟨current_descriptor, all_descriptors⟩ pool with
    | (.error e, pool1) => (.error e, pool1)
    | (.ok (msg, _), pool1) =>
      let (res, pool2) :=
        fieldsFold
          (fun fd v p => visitValueGo (innerDeserializeAny fuel all_descriptors)
            all_descriptors fd v p)
          msg.single_fields msg.repeated_fields pool1
      let pool3 := pool2.return_field_vec []
      let pool4 := pool3.return_repeated_field_vec []
      match res with
      | .error e => (.error e, pool4)
      | .ok entries => (.ok (.mapV entries), pool4)

/-- `visit_value` with the recursive tie to the nested decoder made
explicit: the function a single stored value is resolved with, at the
given remaining recursion depth. -/
def visitValue (fuel : Nat) (all_descriptors : Descriptors)
    (field_descriptor : FieldDescriptor) (value : SingleFieldValue)
    (pool : ArrayPool) : Except Failure VisitValue × ArrayPool :=
  visitValueGo (innerDeserializeAny fuel all_descriptors) all_descriptors
    field_descriptor value pool

/-- Acquire/release balance between two pool states: per buffer shape,
the number of acquisitions equals the number of releases in between
(stated additively so that it is symmetric in the monotone counters). -/
def PoolBalanced (p p' : ArrayPool) : Prop :=
  p'.acquiredField + p.releasedField = p.acquiredField + p'.releasedField ∧
  p'.acquiredRepeated + p.releasedRepeated = p.acquiredRepeated + p'.releasedRepeated ∧
  p'.acquiredSingle + p.releasedSingle = p.acquiredSingle + p'.releasedSingle

/-- Modelled from the spec: the "type's canonical zero value (0, 0.0,
false, empty string/bytes, enum number 0)" named by the default-value
precedence, written from the specification's enumeration for comparison
with `compute_default_value_for_field`; `none` for the types the
enumeration does not cover. -/
def specCanonicalZero : FieldType → Option SingleFieldValue
  | .Double => some (.F64 0)
  | .Float => some (.F32 0)
  | .Int64 => some (.I64 0)
  | .UInt64 => some (.U64 0)
  | .Int32 => some (.I32 0)
  | .Fixed64 => some (.U64 0)
  | .Fixed32 => some (.U32 0)
  | .Bool => some (.Bool false)
  | .String => some (.String [])
  | .Bytes => some (.Bytes [])
  | .UInt32 => some (.U32 0)
  | .Enum _ => some (.Enum 0)
  | .SFixed32 => some (.I32 0)
  | .SFixed64 => some (.I64 0)
  | .SInt32 => some (.I32 0)
  | .SInt64 => some (.I64 0)
  | _ => none

/-! Concrete descriptors used to exercise the decoder on closed inputs. -/

/-- A required `int32` field number 1 named `a`. -/
def exInt32Field : FieldDescriptor := ⟨1, "a", .Required, .Int32, none⟩

/-- A message with the single field `exInt32Field`. -/
def exInt32Msg : MessageDescriptor := ⟨[exInt32Field]⟩

/-- Registry holding only `exInt32Msg`. -/
def exInt32Ds : Descriptors := ⟨[exInt32Msg], []⟩

/-- An optional `int32` field number 1 named `a`, without explicit default. -/
def exOptField : FieldDescriptor := ⟨1, "a", .Optional, .Int32, none⟩

/-- A message with the single field `exOptField`. -/
def exOptMsg : MessageDescriptor := ⟨[exOptField]⟩

/-- Registry holding only `exOptMsg`. -/
def exOptDs : Descriptors := ⟨[exOptMsg], []⟩

/-- A repeated `int32` field number 1 named `r`. -/
def exRepField : FieldDescriptor := ⟨1, "r", .Repeated, .Int32, none⟩

/-- A message with the single field `exRepField`. -/
def exRepMsg : MessageDescriptor := ⟨[exRepField]⟩

/-- Registry holding only `exRepMsg`. -/
def exRepDs : Descriptors := ⟨[exRepMsg], []⟩

/-- An optional field number 1 whose message type is not resolved. -/
def exUnresField : FieldDescriptor := ⟨1, "a", .Optional, .UnresolvedMessage "M", none⟩

/-- A message with the single field `exUnresField`. -/
def exUnresMsg : MessageDescriptor := ⟨[exUnresField]⟩

/-- Registry holding only `exUnresMsg`. -/
def exUnresDs : Descriptors := ⟨[exUnresMsg], []⟩

/-- An enum descriptor with values `ZERO = 0` and `ONE = 1`. -/
def exEnumDesc : EnumDescriptor := ⟨[⟨0, "ZERO"⟩, ⟨1, "ONE"⟩]⟩

/-- A required enum field number 1 named `e`, of enum type index 0. -/
def exEnumField : FieldDescriptor := ⟨1, "e", .Required, .Enum 0, none⟩

/-- A message with the single field `exEnumField`. -/
def exEnumMsg : MessageDescriptor := ⟨[exEnumField]⟩

/-- Registry holding `exEnumMsg` and `exEnumDesc`. -/
def exEnumDs : Descriptors := ⟨[exEnumMsg], [exEnumDesc]⟩

/-- A required message-typed field number 1 named `m`, of message index 0. -/
def exMsgField : FieldDescriptor := ⟨1, "m", .Required, .Message 0, none⟩

/-- An outer message with the single nested-message field `exMsgField`. -/
def exOuterMsg : MessageDescriptor := ⟨[exMsgField]⟩

/-- Registry holding the nested `exInt32Msg` (index 0) and `exOuterMsg`
(index 1). -/
def exNestedDs : Descriptors := ⟨[exInt32Msg, exOuterMsg], []⟩

/-! Helper lemmas about `listSwap`. -/

theorem listSwap_length (l : List α) (i j : Nat) : (listSwap l i j).length = l.length := by
  unfold listSwap
  split <;> simp

theorem listSwap_getElem?_of_ne (l : List α) (i j k : Nat) (hi : k ≠ i) (hj : k ≠ j) :
    (listSwap l i j)[k]? = l[k]? := by
  unfold listSwap
  split
  · rw [List.getElem?_set_ne (Ne.symm hj), List.getElem?_set_ne (Ne.symm hi)]
  · rfl

theorem listSwap_getElem?_right (l : List α) (i j : Nat) (a b : α)
    (ha : l[i]? = some a) (hb : l[j]? = some b) :
    (listSwap l i j)[j]? = some a := by
  unfold listSwap
  rw [ha, hb]
  simp only
  rw [List.getElem?_set_self]
  rw [List.length_set]
  exact (List.getElem?_eq_some_iff.mp hb).1

theorem listSwap_take_of_le (l : List α) (i j w : Nat) (hi : w ≤ i) (hj : w ≤ j) :
    (listSwap l i j).take w = l.take w := by
  apply List.ext_getElem?
  intro k
  rw [List.getElem?_take, List.getElem?_take]
  split
  · next hk =>
    exact listSwap_getElem?_of_ne l i j k
      (fun h => absurd (h ▸ hk) (by omega)) (fun h => absurd (h ▸ hk) (by omega))
  · rfl

/-! Helper lemmas about `dedupLastAdj`. -/

theorem dedupLastAdj_ne_nil [DecidableEq K] (key_fn : α → K) (x : α) (l : List α) :
    dedupLastAdj key_fn (x :: l) ≠ [] := by
  induction l generalizing x with
  | nil => simp [dedupLastAdj]
  | cons y rest ih =>
    simp only [dedupLastAdj]
    split
    · exact ih y
    · simp

theorem dedupLastAdj_getLast? [DecidableEq K] (key_fn : α → K) (l : List α) :
    (dedupLastAdj key_fn l).getLast? = l.getLast? := by
  induction l with
  | nil => rfl
  | cons x rest ih =>
    cases rest with
    | nil => rfl
    | cons y t =>
      simp only [dedupLastAdj]
      rw [List.getLast?_cons_cons]
      split
      · exact ih
      · obtain ⟨a, l', he⟩ := List.exists_cons_of_ne_nil (dedupLastAdj_ne_nil key_fn y t)
        rw [he, List.getLast?_cons_cons, ← he, ih]

theorem dedupLastAdj_sublist [DecidableEq K] (key_fn : α → K) (l : List α) :
    List.Sublist (dedupLastAdj key_fn l) l := by
  induction l with
  | nil => exact .refl []
  | cons x rest ih =>
    cases rest with
    | nil => exact .refl [x]
    | cons y t =>
      simp only [dedupLastAdj]
      split
      · exact .cons x ih
      · exact .cons₂ x ih

theorem dedupLastAdj_append_key_eq [DecidableEq K] (key_fn : α → K) (l : List α)
    (z y : α) (hz : l.getLast? = some z) (h : key_fn y = key_fn z) :
    dedupLastAdj key_fn (l ++ [y]) = (dedupLastAdj key_fn l).dropLast ++ [y] := by
  induction l with
  | nil => simp at hz
  | cons x rest ih =>
    cases rest with
    | nil =>
      simp only [List.getLast?_singleton, Option.some_inj] at hz
      subst hz
      simp [dedupLastAdj, h]
    | cons u t =>
      rw [List.getLast?_cons_cons] at hz
      have step := ih hz
      simp only [List.cons_append, List.append_eq, dedupLastAdj] at step ⊢
      split
      · exact step
      · rw [step, List.dropLast_cons_of_ne_nil (dedupLastAdj_ne_nil key_fn u t)]
        simp

theorem dedupLastAdj_append_key_ne [DecidableEq K] (key_fn : α → K) (l : List α)
    (z y : α) (hz : l.getLast? = some z) (h : key_fn y ≠ key_fn z) :
    dedupLastAdj key_fn (l ++ [y]) = dedupLastAdj key_fn l ++ [y] := by
  induction l with
  | nil => simp at hz
  | cons x rest ih =>
    cases rest with
    | nil =>
      simp only [List.getLast?_singleton, Option.some_inj] at hz
      subst hz
      simp only [List.singleton_append, dedupLastAdj]
      rw [if_neg (fun hh => h hh.symm)]
    | cons u t =>
      rw [List.getLast?_cons_cons] at hz
      have step := ih hz
      simp only [List.cons_append, List.append_eq, dedupLastAdj] at step ⊢
      split
      · exact step
      · rw [step]
        simp

theorem dropLast_append_of_getLast? (l : List α) (z : α) (hz : l.getLast? = some z) :
    l.dropLast ++ [z] = l := by
  induction l with
  | nil => simp at hz
  | cons x rest ih =>
    cases rest with
    | nil =>
      simp only [List.getLast?_singleton, Option.some_inj] at hz
      simp [hz]
    | cons u t =>
      rw [List.getLast?_cons_cons] at hz
      rw [List.dropLast_cons_of_ne_nil (by simp), List.cons_append, ih hz]

theorem getLast?_take_of_le (l : List α) (r : Nat) (h1 : 1 ≤ r) (h2 : r ≤ l.length) :
    (l.take r).getLast? = l[r - 1]? := by
  rw [List.getLast?_eq_getElem?, List.length_take, List.getElem?_take]
  have hmin : min r l.length = r := by omega
  rw [hmin, if_pos (by omega)]

theorem retainLastLoop_step [DecidableEq K] (key_fn : α → K) (fuel : Nat) (v : List α)
    (current : K) (w m r : Nat) (x : α) (hr : r < v.length) (hx : v[r]? = some x) :
    retainLastLoop key_fn (fuel + 1) v current w m r =
      if key_fn x ≠ current then
        retainLastLoop key_fn fuel (if m ≠ w then listSwap v m w else v)
          (key_fn x) (w + 1) (m + 1) (r + 1)
      else retainLastLoop key_fn fuel v current w (m + 1) (r + 1) := by
  simp only [retainLastLoop, if_pos hr, hx]

theorem retainLastLoop_exit [DecidableEq K] (key_fn : α → K) (fuel : Nat) (v : List α)
    (current : K) (w m r : Nat) (hr : ¬ r < v.length) :
    retainLastLoop key_fn fuel v current w m r = (v, w, m) := by
  cases fuel <;> simp [retainLastLoop, hr]

/-- Invariant of the `retain_last_by_key` while loop: positions below
`write_idx` hold the last elements of the completed runs of the prefix
scanned so far, positions from `read_idx - 1` on are untouched, and
`current_key` is the key of the open run. -/
theorem retainLastLoop_spec [DecidableEq K] (key_fn : α → K) (v₀ : List α) :
    ∀ fuel v current w r,
      1 ≤ r → r ≤ v₀.length → v₀.length ≤ fuel + r →
      v.length = v₀.length →
      (∀ j, r - 1 ≤ j → v[j]? = v₀[j]?) →
      w + 1 ≤ r →
      v.take w = (dedupLastAdj key_fn (v₀.take r)).dropLast →
      (∃ z, (v₀.take r).getLast? = some z ∧ current = key_fn z) →
      ∀ vf wf mf, retainLastLoop key_fn fuel v current w (r - 1) r = (vf, wf, mf) →
        mf = v₀.length - 1 ∧ wf + 1 ≤ v₀.length ∧ vf.length = v₀.length ∧
        vf.take wf = (dedupLastAdj key_fn v₀).dropLast ∧
        vf[v₀.length - 1]? = v₀[v₀.length - 1]? := by
  intro fuel
  induction fuel with
  | zero =>
    intro v current w r h1 h2 hf hlen hsuf hw hpre _hcur vf wf mf heq
    have hr : r = v₀.length := by omega
    simp only [retainLastLoop] at heq
    obtain ⟨rfl, rfl, rfl⟩ : v = vf ∧ w = wf ∧ r - 1 = mf := by
      exact ⟨congrArg Prod.fst heq, congrArg (fun p => p.2.1) heq,
        congrArg (fun p => p.2.2) heq⟩
    refine ⟨by omega, by omega, hlen, ?_, ?_⟩
    · rw [hpre, hr, List.take_length]
    · exact hsuf _ (by omega)
  | succ fuel ih =>
    intro v current w r h1 h2 hf hlen hsuf hw hpre hcur vf wf mf heq
    by_cases hrn : r < v₀.length
    · -- one more iteration
      have hlv : r < v.length := by omega
      have hx : v[r]? = v₀[r]? := hsuf r (by omega)
      have hx0 : v₀[r]? = some v₀[r] := List.getElem?_eq_getElem hrn
      obtain ⟨z, hz, hcz⟩ := hcur
      have hzval : v₀[r - 1]? = some z := by
        rw [← getLast?_take_of_le v₀ r h1 h2]; exact hz
      have htakesucc : v₀.take (r + 1) = v₀.take r ++ [v₀[r]] := by
        rw [List.take_succ, hx0]; rfl
      rw [retainLastLoop_step key_fn fuel v current w (r - 1) r v₀[r] hlv
        (hx.trans hx0)] at heq
      by_cases hkey : key_fn v₀[r] ≠ current
      · rw [if_pos hkey] at heq
        have hrm : r - 1 + 1 = r := by omega
        rw [hrm] at heq
        have hrm2 : r = (r + 1) - 1 := by omega
        set v' := if r - 1 ≠ w then listSwap v (r - 1) w else v with hv'
        rw [show retainLastLoop key_fn fuel v' (key_fn v₀[r]) (w + 1) r (r + 1) =
          retainLastLoop key_fn fuel v' (key_fn v₀[r]) (w + 1) ((r + 1) - 1) (r + 1) by
            rw [← hrm2]] at heq
        refine ih v' (key_fn v₀[r]) (w + 1) (r + 1) (by omega) (by omega) (by omega)
          ?_ ?_ (by omega) ?_ ?_ vf wf mf heq
        · rw [hv']; split
          · rw [listSwap_length]; exact hlen
          · exact hlen
        · intro j hj
          have hne1 : j ≠ r - 1 := by omega
          have hne2 : j ≠ w := by omega
          rw [hv']; split
          · rw [listSwap_getElem?_of_ne v (r - 1) w j hne1 hne2]
            exact hsuf j (by omega)
          · exact hsuf j (by omega)
        · -- prefix invariant after the boundary swap
          have hkeyz : key_fn v₀[r] ≠ key_fn z := by rw [← hcz]; exact hkey
          have hded : dedupLastAdj key_fn (v₀.take (r + 1)) =
              dedupLastAdj key_fn (v₀.take r) ++ [v₀[r]] := by
            rw [htakesucc]
            exact dedupLastAdj_append_key_ne key_fn _ z _ hz hkeyz
          have hdedlast : (dedupLastAdj key_fn (v₀.take r)).getLast? = some z := by
            rw [dedupLastAdj_getLast?]; exact hz
          have hded2 : dedupLastAdj key_fn (v₀.take r) =
              (dedupLastAdj key_fn (v₀.take r)).dropLast ++ [z] :=
            (dropLast_append_of_getLast? _ z hdedlast).symm
          rw [hded, List.dropLast_concat, hded2, ← hpre]
          -- goal : v'.take (w + 1) = v.take w ++ [z]
          have hwlt : w < v.length := by omega
          have hvw : v[r - 1]? = some z := by
            rw [hsuf (r - 1) (by omega)]; exact hzval
          have hvtake : v'.take w = v.take w := by
            rw [hv']; split
            · exact listSwap_take_of_le v (r - 1) w w (by omega) (by omega)
            · rfl
          have hvget : v'[w]? = some z := by
            rw [hv']; split
            · next hne =>
              obtain ⟨b, hb⟩ : ∃ b, v[w]? = some b :=
                ⟨v[w], List.getElem?_eq_getElem hwlt⟩
              exact listSwap_getElem?_right v (r - 1) w z b hvw hb
            · next hne =>
              have : r - 1 = w := by omega
              rw [← this]; exact hvw
          rw [List.take_succ, hvtake, hvget]; rfl
        · exact ⟨v₀[r], by
            rw [getLast?_take_of_le v₀ (r + 1) (by omega) (by omega)]
            simp only [Nat.add_sub_cancel]
            exact List.getElem?_eq_getElem hrn, rfl⟩
      · rw [if_neg hkey] at heq
        have hkeq : key_fn v₀[r] = current := by
          by_contra hne; exact hkey hne
        have hrm : r - 1 + 1 = r := by omega
        rw [hrm] at heq
        rw [show retainLastLoop key_fn fuel v current w r (r + 1) =
          retainLastLoop key_fn fuel v current w ((r + 1) - 1) (r + 1) by
            congr 1] at heq
        refine ih v current w (r + 1) (by omega) (by omega) (by omega)
          hlen (fun j hj => hsuf j (by omega)) (by omega) ?_ ?_ vf wf mf heq
        · have hkeyz : key_fn v₀[r] = key_fn z := by rw [← hcz]; exact hkeq
          have hded : dedupLastAdj key_fn (v₀.take (r + 1)) =
              (dedupLastAdj key_fn (v₀.take r)).dropLast ++ [v₀[r]] := by
            rw [htakesucc]
            exact dedupLastAdj_append_key_eq key_fn _ z _ hz hkeyz
          rw [hded, List.dropLast_concat]
          exact hpre
        · refine ⟨v₀[r], ?_, ?_⟩
          · rw [getLast?_take_of_le v₀ (r + 1) (by omega) (by omega)]
            simp only [Nat.add_sub_cancel]
            exact List.getElem?_eq_getElem hrn
          · rw [hcz, ← hcz]
            exact hkeq.symm
    · -- the loop exits: r = v₀.length
      have hr : r = v₀.length := by omega
      rw [retainLastLoop_exit key_fn (fuel + 1) v current w (r - 1) r (by omega)] at heq
      obtain ⟨rfl, rfl, rfl⟩ : v = vf ∧ w = wf ∧ r - 1 = mf := by
        exact ⟨congrArg Prod.fst heq, congrArg (fun p => p.2.1) heq,
          congrArg (fun p => p.2.2) heq⟩
      refine ⟨by omega, by omega, hlen, ?_, ?_⟩
      · rw [hpre, hr, List.take_length]
      · exact hsuf _ (by omega)

/-- The imperative `retain_last_by_key` computes exactly the functional
collapse of consecutive equal-key runs keeping the last element of each. -/
theorem retain_last_by_key_eq_dedupLastAdj [DecidableEq K] (slice : List α)
    (key_fn : α → K) :
    retain_last_by_key slice key_fn = dedupLastAdj key_fn slice := by
  cases slice with
  | nil => rfl
  | cons x xs =>
    rcases hloop : retainLastLoop key_fn (x :: xs).length (x :: xs) (key_fn x) 0 0 1
      with ⟨vf, wf, mf⟩
    have hpre0 : (x :: xs).take 0 = (dedupLastAdj key_fn ((x :: xs).take 1)).dropLast := by
      simp [dedupLastAdj]
    have hcur0 : ∃ z, ((x :: xs).take 1).getLast? = some z ∧ key_fn x = key_fn z :=
      ⟨x, by simp, rfl⟩
    have hspec := retainLastLoop_spec key_fn (x :: xs) (x :: xs).length (x :: xs)
      (key_fn x) 0 1 (by omega) (by simp) (by omega) rfl (fun j _ => rfl) (by omega)
      hpre0 hcur0 vf wf mf (by simpa using hloop)
    obtain ⟨hmf, hwf, hlen, htake, hget⟩ := hspec
    obtain ⟨z, hz⟩ : ∃ z, (x :: xs)[(x :: xs).length - 1]? = some z :=
      ⟨_, List.getElem?_eq_getElem (by simp)⟩
    have hded : dedupLastAdj key_fn (x :: xs) =
        (dedupLastAdj key_fn (x :: xs)).dropLast ++ [z] := by
      refine (dropLast_append_of_getLast? _ z ?_).symm
      rw [dedupLastAdj_getLast?, List.getLast?_eq_getElem?]
      exact hz
    have hvfmf : vf[mf]? = some z := by rw [hmf, hget]; exact hz
    simp only [retain_last_by_key, hloop]
    by_cases hmw : mf ≠ wf
    · rw [if_pos hmw]
      have hwlt : wf < vf.length := by omega
      obtain ⟨b, hb⟩ : ∃ b, vf[wf]? = some b := ⟨vf[wf], List.getElem?_eq_getElem hwlt⟩
      rw [List.take_succ,
        listSwap_take_of_le vf mf wf wf (by omega) (le_refl wf),
        listSwap_getElem?_right vf mf wf z b hvfmf hb, htake]
      exact hded.symm
    · rw [if_neg hmw]
      have hmw' : mf = wf := by omega
      rw [List.take_succ, htake, ← hmw', hvfmf]
      exact hded.symm

/-! Helper lemmas about the stable sort. -/

theorem orderedInsertByKey_filter_key (key_fn : α → Nat) (x : α) (l : List α) (T : Nat) :
    (orderedInsertByKey key_fn x l).filter (fun a => key_fn a == T) =
      if key_fn x = T then x :: l.filter (fun a => key_fn a == T)
      else l.filter (fun a => key_fn a == T) := by
  induction l with
  | nil =>
    by_cases h : key_fn x = T <;>
      simp [orderedInsertByKey, List.filter_cons, h]
  | cons y ys ih =>
    by_cases hle : key_fn x ≤ key_fn y
    · simp only [orderedInsertByKey, if_pos hle]
      by_cases h : key_fn x = T <;> simp [List.filter_cons, h]
    · simp only [orderedInsertByKey, if_neg hle]
      rw [List.filter_cons, ih]
      by_cases hy : key_fn y = T
      · have hxT : ¬ key_fn x = T := by omega
        simp [hy, hxT]
      · by_cases h : key_fn x = T <;> simp [h, hy, List.filter_cons]

theorem sort_by_key_filter_key (key_fn : α → Nat) (l : List α) (T : Nat) :
    (sort_by_key key_fn l).filter (fun a => key_fn a == T) =
      l.filter (fun a => key_fn a == T) := by
  induction l with
  | nil => rfl
  | cons x xs ih =>
    simp only [sort_by_key, orderedInsertByKey_filter_key, List.filter_cons, ih]
    split <;> simp_all

theorem mem_orderedInsertByKey (key_fn : α → Nat) (x a : α) (l : List α) :
    a ∈ orderedInsertByKey key_fn x l ↔ a = x ∨ a ∈ l := by
  induction l with
  | nil => simp [orderedInsertByKey]
  | cons y ys ih =>
    simp only [orderedInsertByKey]
    split
    · simp
    · simp only [List.mem_cons, ih]
      tauto

theorem orderedInsertByKey_pairwise (key_fn : α → Nat) (x : α) (l : List α)
    (h : l.Pairwise (fun a b => key_fn a ≤ key_fn b)) :
    (orderedInsertByKey key_fn x l).Pairwise (fun a b => key_fn a ≤ key_fn b) := by
  induction l with
  | nil => simp [orderedInsertByKey]
  | cons y ys ih =>
    rw [List.pairwise_cons] at h
    obtain ⟨hy, hys⟩ := h
    simp only [orderedInsertByKey]
    split
    · next hle =>
      rw [List.pairwise_cons]
      refine ⟨?_, List.pairwise_cons.mpr ⟨hy, hys⟩⟩
      intro b hb
      rcases List.mem_cons.mp hb with rfl | hb
      · exact hle
      · exact le_trans hle (hy b hb)
    · next hgt =>
      rw [List.pairwise_cons]
      refine ⟨?_, ih hys⟩
      intro b hb
      rcases (mem_orderedInsertByKey key_fn x b ys).mp hb with rfl | hb
      · omega
      · exact hy b hb

theorem sort_by_key_pairwise (key_fn : α → Nat) (l : List α) :
    (sort_by_key key_fn l).Pairwise (fun a b => key_fn a ≤ key_fn b) := by
  induction l with
  | nil => exact .nil
  | cons x xs ih => exact orderedInsertByKey_pairwise key_fn x _ ih

theorem orderedInsertByKey_perm (key_fn : α → Nat) (x : α) (l : List α) :
    (orderedInsertByKey key_fn x l).Perm (x :: l) := by
  induction l with
  | nil => exact .refl [x]
  | cons y ys ih =>
    simp only [orderedInsertByKey]
    split
    · exact .refl _
    · exact ((ih.cons y).trans (List.Perm.swap x y ys))

theorem sort_by_key_perm (key_fn : α → Nat) (l : List α) :
    (sort_by_key key_fn l).Perm l := by
  induction l with
  | nil => exact .refl []
  | cons x xs ih => exact (orderedInsertByKey_perm key_fn x _).trans (ih.cons x)

/-- On a key-sorted list, collapsing runs and then filtering one key
leaves exactly the last element carrying that key, if any. -/
theorem dedupLastAdj_filter_of_sorted (key_fn : α → Nat) (l : List α)
    (hs : l.Pairwise (fun a b => key_fn a ≤ key_fn b)) (T : Nat) :
    (dedupLastAdj key_fn l).filter (fun a => key_fn a == T) =
      ((l.filter (fun a => key_fn a == T)).getLast?).toList := by
  induction l with
  | nil => rfl
  | cons x rest ih =>
    cases rest with
    | nil =>
      simp only [dedupLastAdj, List.filter]
      split
      · rfl
      · rfl
    | cons y t =>
      rw [List.pairwise_cons] at hs
      obtain ⟨hx, hyt⟩ := hs
      simp only [dedupLastAdj]
      split
      · next hkeq =>
        rw [ih hyt]
        by_cases hxt : key_fn x = T
        · have hyT : (fun a => key_fn a == T) y = true := by
            simp [← hkeq, hxt]
          have hxT : (fun a => key_fn a == T) x = true := by simp [hxt]
          rw [@List.filter_cons_of_pos _ (fun a => key_fn a == T) x (y :: t) hxT,
            @List.filter_cons_of_pos _ (fun a => key_fn a == T) y t hyT,
            List.getLast?_cons_cons,
            ← @List.filter_cons_of_pos _ (fun a => key_fn a == T) y t hyT]
        · rw [@List.filter_cons_of_neg _ (fun a => key_fn a == T) x (y :: t)
            (by simpa using hxt)]
      · next hkne =>
        by_cases hxt : key_fn x = T
        · have hyx : key_fn x ≤ key_fn y := hx y (by simp)
          have hygt : T < key_fn y := by omega
          have hfilt : (y :: t).filter (fun a => key_fn a == T) = [] := by
            rw [List.filter_eq_nil_iff]
            intro b hb
            rcases List.mem_cons.mp hb with rfl | hbt
            · simp only [beq_iff_eq]; omega
            · have := (List.pairwise_cons.mp hyt).1 b hbt
              simp only [beq_iff_eq]; omega
          have hfilt2 : (dedupLastAdj key_fn (y :: t)).filter
              (fun a => key_fn a == T) = [] := by
            rw [← List.sublist_nil, ← hfilt]
            exact (dedupLastAdj_sublist key_fn (y :: t)).filter _
          rw [@List.filter_cons_of_pos _ (fun a => key_fn a == T) x
              (dedupLastAdj key_fn (y :: t)) (by simpa using hxt), hfilt2,
            @List.filter_cons_of_pos _ (fun a => key_fn a == T) x (y :: t)
              (by simpa using hxt), hfilt]
          simp
        · rw [@List.filter_cons_of_neg _ (fun a => key_fn a == T) x
              (dedupLastAdj key_fn (y :: t)) (by simpa using hxt),
            @List.filter_cons_of_neg _ (fun a => key_fn a == T) x (y :: t)
              (by simpa using hxt)]
          exact ih hyt

/-- The decoder's post-pass (stable sort by tag, then collapse of equal
runs) reduces the records with tag `T` to exactly the last such record of
the raw list, in raw order. -/
theorem postpass_filter {V : Type} (raw : List (Field V)) (T : Nat) :
    (retain_last_by_key (sort_by_key (fun f => f.tag) raw) (fun f => f.tag)).filter
        (fun f => f.tag == T) =
      ((raw.filter (fun f => f.tag == T)).getLast?).toList := by
  rw [retain_last_by_key_eq_dedupLastAdj,
    dedupLastAdj_filter_of_sorted _ _ (sort_by_key_pairwise _ raw) T,
    sort_by_key_filter_key]

/-- Every record surviving the post-pass was present in the raw list. -/
theorem postpass_mem {V : Type} (raw : List (Field V)) (f : Field V)
    (h : f ∈ retain_last_by_key (sort_by_key (fun g => g.tag) raw) (fun g => g.tag)) :
    f ∈ raw := by
  rw [retain_last_by_key_eq_dedupLastAdj] at h
  exact (sort_by_key_perm _ raw).mem_iff.mp ((dedupLastAdj_sublist _ _).subset h)

/-! Facts about the scan loop `parseLoop`. -/

/-- Loop step: an exhausted reader ends the scan successfully. -/
theorem parseLoop_eof (cmds : CurrentMessageDescriptors) (bytes : List Nat)
    (fuel : Nat) (reader : BytesReader) (singles : List (Field SingleFieldValue))
    (reps : List (Field RepeatedFieldValue)) (pool : ArrayPool)
    (h : reader.is_eof = true) :
    parseLoop cmds bytes fuel reader singles reps pool =
      (.ok (singles, reps, reader), pool) := by
  cases fuel <;> simp [parseLoop, h]

/-- Loop step: a reader failure while reading the tag aborts the scan. -/
theorem parseLoop_tag_error (cmds : CurrentMessageDescriptors) (bytes : List Nat)
    (fuel : Nat) (reader : BytesReader) (singles : List (Field SingleFieldValue))
    (reps : List (Field RepeatedFieldValue)) (pool : ArrayPool) (e : Failure)
    (h : reader.is_eof = false) (ht : next_tag bytes reader = .error e) :
    parseLoop cmds bytes (fuel + 1) reader singles reps pool = (.error e, pool) := by
  simp [parseLoop, h, ht]

/-- Loop step: an unknown field number is consumed and discarded per its
wire type and the scan continues with all records unchanged. -/
theorem parseLoop_unknown_step (cmds : CurrentMessageDescriptors) (bytes : List Nat)
    (fuel : Nat) (reader : BytesReader) (singles : List (Field SingleFieldValue))
    (reps : List (Field RepeatedFieldValue)) (pool : ArrayPool)
    (tag : Nat) (r1 r2 : BytesReader)
    (h : reader.is_eof = false) (ht : next_tag bytes reader = .ok (tag, r1))
    (hfind : cmds.current_descriptor.fields.find?
      (fun f => f.number == ((tag >>> 3 : Nat) : Int)) = none)
    (hskip : read_unknown bytes r1 tag = .ok r2) :
    parseLoop cmds bytes (fuel + 1) reader singles reps pool =
      parseLoop cmds bytes fuel r2 singles reps pool := by
  simp [parseLoop, h, ht, hfind, hskip]

/-- Loop step: a failure while skipping an unknown field aborts the scan. -/
theorem parseLoop_unknown_error (cmds : CurrentMessageDescriptors) (bytes : List Nat)
    (fuel : Nat) (reader : BytesReader) (singles : List (Field SingleFieldValue))
    (reps : List (Field RepeatedFieldValue)) (pool : ArrayPool)
    (tag : Nat) (r1 : BytesReader) (e : Failure)
    (h : reader.is_eof = false) (ht : next_tag bytes reader = .ok (tag, r1))
    (hfind : cmds.current_descriptor.fields.find?
      (fun f => f.number == ((tag >>> 3 : Nat) : Int)) = none)
    (hskip : read_unknown bytes r1 tag = .error e) :
    parseLoop cmds bytes (fuel + 1) reader singles reps pool = (.error e, pool) := by
  simp [parseLoop, h, ht, hfind, hskip]

/-- Loop step: a failure while decoding a declared field's value aborts
the scan. -/
theorem parseLoop_value_error (cmds : CurrentMessageDescriptors) (bytes : List Nat)
    (fuel : Nat) (reader : BytesReader) (singles : List (Field SingleFieldValue))
    (reps : List (Field RepeatedFieldValue)) (pool : ArrayPool)
    (tag : Nat) (r1 : BytesReader) (d : FieldDescriptor) (e : Failure)
    (h : reader.is_eof = false) (ht : next_tag bytes reader = .ok (tag, r1))
    (hfind : cmds.current_descriptor.fields.find?
      (fun f => f.number == ((tag >>> 3 : Nat) : Int)) = some d)
    (hval : SingleFieldValue.parse_from_reader r1 bytes
      (d.field_type cmds.all_descriptors) = .error e) :
    parseLoop cmds bytes (fuel + 1) reader singles reps pool = (.error e, pool) := by
  simp [parseLoop, h, ht, hfind, hval]

/-- Loop step: a declared non-repeated field occurrence pushes a new
(possibly transiently duplicate) singular record. -/
theorem parseLoop_single_step (cmds : CurrentMessageDescriptors) (bytes : List Nat)
    (fuel : Nat) (reader : BytesReader) (singles : List (Field SingleFieldValue))
    (reps : List (Field RepeatedFieldValue)) (pool : ArrayPool)
    (tag : Nat) (r1 r2 : BytesReader) (d : FieldDescriptor) (value : SingleFieldValue)
    (h : reader.is_eof = false) (ht : next_tag bytes reader = .ok (tag, r1))
    (hfind : cmds.current_descriptor.fields.find?
      (fun f => f.number == ((tag >>> 3 : Nat) : Int)) = some d)
    (hval : SingleFieldValue.parse_from_reader r1 bytes
      (d.field_type cmds.all_descriptors) = .ok (value, r2))
    (hrep : d.is_repeated = false) :
    parseLoop cmds bytes (fuel + 1) reader singles reps pool =
      parseLoop cmds bytes fuel r2
        (singles ++ [{ descriptor := d, tag := tag >>> 3, value := value }]) reps pool := by
  simp [parseLoop, h, ht, hfind, hval, hrep]

/-- Loop step: a declared repeated field occurrence is appended to its
existing record, all other records unchanged. -/
theorem parseLoop_repeated_push_step (cmds : CurrentMessageDescriptors) (bytes : List Nat)
    (fuel : Nat) (reader : BytesReader) (singles : List (Field SingleFieldValue))
    (reps reps2 : List (Field RepeatedFieldValue)) (pool : ArrayPool)
    (tag : Nat) (r1 r2 : BytesReader) (d : FieldDescriptor) (value : SingleFieldValue)
    (h : reader.is_eof = false) (ht : next_tag bytes reader = .ok (tag, r1))
    (hfind : cmds.current_descriptor.fields.find?
      (fun f => f.number == ((tag >>> 3 : Nat) : Int)) = some d)
    (hval : SingleFieldValue.parse_from_reader r1 bytes
      (d.field_type cmds.all_descriptors) = .ok (value, r2))
    (hrep : d.is_repeated = true)
    (hpush : pushToFirstMatch (tag >>> 3) value reps = some reps2) :
    parseLoop cmds bytes (fuel + 1) reader singles reps pool =
      parseLoop cmds bytes fuel r2 singles reps2 pool := by
  simp [parseLoop, h, ht, hfind, hval, hrep, hpush]

/-- Loop step: a repeated occurrence with no existing record creates one
on demand with a pooled value buffer. -/
theorem parseLoop_repeated_new_step (cmds : CurrentMessageDescriptors) (bytes : List Nat)
    (fuel : Nat) (reader : BytesReader) (singles : List (Field SingleFieldValue))
    (reps : List (Field RepeatedFieldValue)) (pool : ArrayPool)
    (tag : Nat) (r1 r2 : BytesReader) (d : FieldDescriptor) (value : SingleFieldValue)
    (h : reader.is_eof = false) (ht : next_tag bytes reader = .ok (tag, r1))
    (hfind : cmds.current_descriptor.fields.find?
      (fun f => f.number == ((tag >>> 3 : Nat) : Int)) = some d)
    (hval : SingleFieldValue.parse_from_reader r1 bytes
      (d.field_type cmds.all_descriptors) = .ok (value, r2))
    (hrep : d.is_repeated = true)
    (hpush : pushToFirstMatch (tag >>> 3) value reps = none) :
    parseLoop cmds bytes (fuel + 1) reader singles reps pool =
      parseLoop cmds bytes fuel r2 singles
        (reps ++ [{ descriptor := d, tag := tag >>> 3, value := [value] }])
        (pool.get_single_field_val_vec).2 := by
  simp [parseLoop, h, ht, hfind, hval, hrep, hpush, ArrayPool.get_single_field_val_vec]

/-- On success the loop only appends singular records, and every appended
record's descriptor is a declared field of the current message. -/
theorem parseLoop_singles_spec (cmds : CurrentMessageDescriptors) (bytes : List Nat) :
    ∀ fuel reader singles reps pool s' reps' rd' pool',
      parseLoop cmds bytes fuel reader singles reps pool = (.ok (s', reps', rd'), pool') →
      ∃ app, s' = singles ++ app ∧
        ∀ rec ∈ app, rec.descriptor ∈ cmds.current_descriptor.fields := by
  intro fuel
  induction fuel with
  | zero =>
    intro reader singles reps pool s' reps' rd' pool' heq
    cases he : reader.is_eof with
    | true =>
      rw [parseLoop_eof cmds bytes 0 reader singles reps pool he] at heq
      simp only [Prod.mk.injEq, Except.ok.injEq] at heq
      obtain ⟨⟨hs, _, _⟩, _⟩ := heq
      exact ⟨[], by simp [← hs], by simp⟩
    | false =>
      simp [parseLoop, he] at heq
  | succ fuel ih =>
    intro reader singles reps pool s' reps' rd' pool' heq
    cases he : reader.is_eof with
    | true =>
      rw [parseLoop_eof cmds bytes _ reader singles reps pool he] at heq
      simp only [Prod.mk.injEq, Except.ok.injEq] at heq
      obtain ⟨⟨hs, _, _⟩, _⟩ := heq
      exact ⟨[], by simp [← hs], by simp⟩
    | false =>
      cases ht : next_tag bytes reader with
      | error e =>
        rw [parseLoop_tag_error cmds bytes fuel reader singles reps pool e he ht] at heq
        simp at heq
      | ok tr =>
        obtain ⟨tag, r1⟩ := tr
        cases hfind : cmds.current_descriptor.fields.find?
            (fun f => f.number == ((tag >>> 3 : Nat) : Int)) with
        | none =>
          cases hskip : read_unknown bytes r1 tag with
          | error e =>
            rw [parseLoop_unknown_error cmds bytes fuel reader singles reps pool
              tag r1 e he ht hfind hskip] at heq
            simp at heq
          | ok r2 =>
            rw [parseLoop_unknown_step cmds bytes fuel reader singles reps pool
              tag r1 r2 he ht hfind hskip] at heq
            exact ih _ _ _ _ _ _ _ _ heq
        | some d =>
          cases hval : SingleFieldValue.parse_from_reader r1 bytes
              (d.field_type cmds.all_descriptors) with
          | error e =>
            rw [parseLoop_value_error cmds bytes fuel reader singles reps pool
              tag r1 d e he ht hfind hval] at heq
            simp at heq
          | ok vr =>
            obtain ⟨value, r2⟩ := vr
            cases hrep : d.is_repeated with
            | false =>
              rw [parseLoop_single_step cmds bytes fuel reader singles reps pool
                tag r1 r2 d value he ht hfind hval hrep] at heq
              obtain ⟨app, happ, hmem⟩ := ih _ _ _ _ _ _ _ _ heq
              refine ⟨{ descriptor := d, tag := tag >>> 3, value := value } :: app,
                by simpa using happ, ?_⟩
              intro rec hrec
              rcases List.mem_cons.mp hrec with rfl | hrec
              · exact List.mem_of_find?_eq_some hfind
              · exact hmem rec hrec
            | true =>
              cases hpush : pushToFirstMatch (tag >>> 3) value reps with
              | some reps2 =>
                rw [parseLoop_repeated_push_step cmds bytes fuel reader singles
                  reps reps2 pool tag r1 r2 d value he ht hfind hval hrep hpush] at heq
                exact ih _ _ _ _ _ _ _ _ heq
              | none =>
                rw [parseLoop_repeated_new_step cmds bytes fuel reader singles
                  reps pool tag r1 r2 d value he ht hfind hval hrep hpush] at heq
                exact ih _ _ _ _ _ _ _ _ heq

/-- `pushToFirstMatch` only changes one record's value: descriptors and
tags are untouched. -/
theorem pushToFirstMatch_map (tag : Nat) (value : SingleFieldValue) :
    ∀ reps reps2, pushToFirstMatch tag value reps = some reps2 →
      reps2.map (fun f => (f.descriptor, f.tag)) =
        reps.map (fun f => (f.descriptor, f.tag)) := by
  intro reps
  induction reps with
  | nil => intro reps2 h; simp [pushToFirstMatch] at h
  | cons f fs ih =>
    intro reps2 h
    simp only [pushToFirstMatch] at h
    split at h
    · simp only [Option.some_inj] at h
      subst h
      simp
    · cases hrec : pushToFirstMatch tag value fs with
      | none => rw [hrec] at h; simp at h
      | some fs2 =>
        rw [hrec] at h
        simp only [Option.map_some', Option.some_inj] at h
        subst h
        simp [ih fs2 hrec]

/-- `pushToFirstMatch` characterized: the record list splits at the first
record carrying the tag, which receives the value at the end of its
stored sequence. -/
theorem pushToFirstMatch_split (tag : Nat) (value : SingleFieldValue) :
    ∀ reps reps2, pushToFirstMatch tag value reps = some reps2 →
      ∃ pre rec post, reps = pre ++ rec :: post ∧
        (∀ g ∈ pre, g.tag ≠ tag) ∧ rec.tag = tag ∧
        reps2 = pre ++ { rec with value := rec.value ++ [value] } :: post := by
  intro reps
  induction reps with
  | nil => intro reps2 h; simp [pushToFirstMatch] at h
  | cons f fs ih =>
    intro reps2 h
    simp only [pushToFirstMatch] at h
    split at h
    · next htag =>
      simp only [Option.some_inj] at h
      exact ⟨[], f, fs, by simp, by simp, htag, by simp [← h]⟩
    · next htag =>
      cases hrec : pushToFirstMatch tag value fs with
      | none => rw [hrec] at h; simp at h
      | some fs2 =>
        rw [hrec] at h
        simp only [Option.map_some', Option.some_inj] at h
        obtain ⟨pre, rec, post, hsplit, hpre, hrtag, hres⟩ := ih fs2 hrec
        exact ⟨f :: pre, rec, post, by simp [hsplit],
          fun g hg => by
            rcases List.mem_cons.mp hg with rfl | hg
            · exact htag
            · exact hpre g hg,
          hrtag, by simp [← h, hres]⟩

/-- Seeding the repeated records: one empty pooled record per declared
repeated field, in declaration order; one buffer acquired per record and
no other pool activity. -/
theorem seedRepeated_spec (fields : List FieldDescriptor) :
    ∀ pool, (seedRepeated pool fields).1.map (fun f => f.descriptor) =
        fields.filter (fun f => f.is_repeated) ∧
      (∀ rec ∈ (seedRepeated pool fields).1,
        rec.value = [] ∧ rec.tag = u32cast rec.descriptor.number) ∧
      (seedRepeated pool fields).2.acquiredSingle =
        pool.acquiredSingle + (seedRepeated pool fields).1.length ∧
      (seedRepeated pool fields).2.releasedSingle = pool.releasedSingle ∧
      (seedRepeated pool fields).2.acquiredField = pool.acquiredField ∧
      (seedRepeated pool fields).2.releasedField = pool.releasedField ∧
      (seedRepeated pool fields).2.acquiredRepeated = pool.acquiredRepeated ∧
      (seedRepeated pool fields).2.releasedRepeated = pool.releasedRepeated := by
  induction fields with
  | nil => intro pool; simp [seedRepeated]
  | cons d rest ih =>
    intro pool
    cases hrep : d.is_repeated with
    | false =>
      have := ih pool
      simpa [seedRepeated, hrep, List.filter_cons] using this
    | true =>
      rcases hsr : seedRepeated (pool.get_single_field_val_vec).2 rest with ⟨fs, pool2⟩
      have hthis := ih (pool.get_single_field_val_vec).2
      rw [hsr] at hthis
      dsimp only [ArrayPool.get_single_field_val_vec] at hthis
      simp only [ArrayPool.get_single_field_val_vec] at hsr
      obtain ⟨h1, h2, h3, h4, h5, h6, h7, h8⟩ := hthis
      have hunfold : seedRepeated pool (d :: rest) =
          ({ value := [], tag := u32cast d.number, descriptor := d } :: fs, pool2) := by
        simp [seedRepeated, hrep, ArrayPool.get_single_field_val_vec, hsr]
      rw [hunfold]
      refine ⟨?_, ?_, ?_, ?_, ?_, ?_, ?_, ?_⟩
      · simp [List.filter_cons, hrep, h1]
      · intro rec hrec
        rcases List.mem_cons.mp hrec with rfl | hrec
        · exact ⟨rfl, rfl⟩
        · exact h2 rec hrec
      · simp only [h3, List.length_cons]
        have haq : (pool.get_single_field_val_vec).2.acquiredSingle =
          pool.acquiredSingle + 1 := rfl
        omega
      · exact h4
      · exact h5
      · exact h6
      · exact h7
      · exact h8

/-- A computed default record carries the field's number (cast to `u32`)
as its tag and the field itself as its descriptor. -/
theorem compute_default_tag (f : FieldDescriptor) (ds : Descriptors)
    (rec : Field SingleFieldValue)
    (h : compute_default_value_for_field f ds = .ok rec) :
    rec.tag = u32cast f.number ∧ rec.descriptor = f := by
  simp only [compute_default_value_for_field] at h
  split at h
  · simp at h
  · simp only [Except.ok.injEq] at h
    subst h
    exact ⟨rfl, rfl⟩

/-- Every seeded singular record is the computed default of one declared
non-repeated field, and carries that field's number as tag. -/
theorem seedSingles_records (ds : Descriptors) :
    ∀ fields seeded, seedSingles ds fields = .ok seeded →
      ∀ rec ∈ seeded, ∃ f, f ∈ fields ∧ f.is_repeated = false ∧
        compute_default_value_for_field f ds = .ok rec ∧ rec.tag = u32cast f.number := by
  intro fields
  induction fields with
  | nil =>
    intro seeded h rec hrec
    simp only [seedSingles, Except.ok.injEq] at h
    subst h
    simp at hrec
  | cons f rest ih =>
    intro seeded h rec hrec
    by_cases hrep : f.is_repeated = true
    · rw [seedSingles, if_pos hrep] at h
      obtain ⟨g, hg, hgr, hgd, hgt⟩ := ih seeded h rec hrec
      exact ⟨g, List.mem_cons_of_mem f hg, hgr, hgd, hgt⟩
    · rw [seedSingles, if_neg hrep] at h
      cases hcd : compute_default_value_for_field f ds with
      | error e => rw [hcd] at h; simp at h
      | ok fd =>
        rw [hcd] at h
        cases hrest : seedSingles ds rest with
        | error e => rw [hrest] at h; simp at h
        | ok seeded' =>
          rw [hrest] at h
          simp only [Except.ok.injEq] at h
          subst h
          rcases List.mem_cons.mp hrec with rfl | hrec
          · exact ⟨f, List.mem_cons_self f rest, by simpa using hrep, hcd,
              (compute_default_tag f ds rec hcd).1⟩
          · obtain ⟨g, hg, hgr, hgd, hgt⟩ := ih seeded' hrest rec hrec
            exact ⟨g, List.mem_cons_of_mem f hg, hgr, hgd, hgt⟩

/-- With pairwise-distinct declared field numbers, the seeded records
carrying a given declared field's tag are exactly that field's computed
default record. -/
theorem seedSingles_filter (ds : Descriptors) :
    ∀ fields seeded d, seedSingles ds fields = .ok seeded →
      d ∈ fields → d.is_repeated = false →
      (fields.map (fun f => u32cast f.number)).Nodup →
      ∃ fd, compute_default_value_for_field d ds = .ok fd ∧
        seeded.filter (fun f => f.tag == u32cast d.number) = [fd] := by
  intro fields
  induction fields with
  | nil => intro seeded d _ hd; simp at hd
  | cons f rest ih =>
    intro seeded d h hd hdrep hnodup
    rw [List.map_cons, List.nodup_cons] at hnodup
    obtain ⟨hfnotin, hnodup'⟩ := hnodup
    rcases List.mem_cons.mp hd with rfl | hd
    · -- d is the head field
      rw [seedSingles, if_neg (by simp [hdrep])] at h
      cases hcd : compute_default_value_for_field d ds with
      | error e => rw [hcd] at h; simp at h
      | ok fd =>
        rw [hcd] at h
        cases hrest : seedSingles ds rest with
        | error e => rw [hrest] at h; simp at h
        | ok seeded' =>
          rw [hrest] at h
          simp only [Except.ok.injEq] at h
          subst h
          refine ⟨fd, rfl, ?_⟩
          have hfd : fd.tag = u32cast d.number := (compute_default_tag d ds fd hcd).1
          have hrestfilter : seeded'.filter (fun g => g.tag == u32cast d.number) = [] := by
            rw [List.filter_eq_nil_iff]
            intro rec hrec
            obtain ⟨g, hg, _, _, hgt⟩ := seedSingles_records ds rest seeded' hrest rec hrec
            have : u32cast g.number ∈ rest.map (fun x => u32cast x.number) :=
              List.mem_map_of_mem _ hg
            simp only [beq_iff_eq, hgt]
            intro hcontra
            exact hfnotin (hcontra ▸ this)
          rw [List.filter_cons_of_pos (by simp [hfd]), hrestfilter]
    · -- d occurs further down
      have hdcast : u32cast d.number ∈ rest.map (fun x => u32cast x.number) :=
        List.mem_map_of_mem _ hd
      have hfne : u32cast f.number ≠ u32cast d.number := fun hc => hfnotin (hc ▸ hdcast)
      by_cases hfrep : f.is_repeated = true
      · rw [seedSingles, if_pos hfrep] at h
        exact ih seeded d h hd hdrep hnodup'
      · rw [seedSingles, if_neg hfrep] at h
        cases hcd : compute_default_value_for_field f ds with
        | error e => rw [hcd] at h; simp at h
        | ok fd0 =>
          rw [hcd] at h
          cases hrest : seedSingles ds rest with
          | error e => rw [hrest] at h; simp at h
          | ok seeded' =>
            rw [hrest] at h
            simp only [Except.ok.injEq] at h
            subst h
            obtain ⟨fd, hfd, hfilter⟩ := ih seeded' d hrest hd hdrep hnodup'
            refine ⟨fd, hfd, ?_⟩
            have hfd0 : fd0.tag = u32cast f.number := (compute_default_tag f ds fd0 hcd).1
            rw [List.filter_cons_of_neg (by simp [hfd0, hfne]), hfilter]

/-- On success the loop preserves every repeated record's descriptor and
only appends records for declared fields. -/
theorem parseLoop_reps_spec (cmds : CurrentMessageDescriptors) (bytes : List Nat) :
    ∀ fuel reader singles reps pool s' reps' rd' pool',
      parseLoop cmds bytes fuel reader singles reps pool = (.ok (s', reps', rd'), pool') →
      ∃ ds, reps'.map (fun f => f.descriptor) = reps.map (fun f => f.descriptor) ++ ds ∧
        ∀ d ∈ ds, d ∈ cmds.current_descriptor.fields ∧ d.is_repeated = true := by
  intro fuel
  induction fuel with
  | zero =>
    intro reader singles reps pool s' reps' rd' pool' heq
    cases he : reader.is_eof with
    | true =>
      rw [parseLoop_eof cmds bytes 0 reader singles reps pool he] at heq
      simp only [Prod.mk.injEq, Except.ok.injEq] at heq
      obtain ⟨⟨_, hr, _⟩, _⟩ := heq
      exact ⟨[], by simp [← hr], by simp⟩
    | false => simp [parseLoop, he] at heq
  | succ fuel ih =>
    intro reader singles reps pool s' reps' rd' pool' heq
    cases he : reader.is_eof with
    | true =>
      rw [parseLoop_eof cmds bytes _ reader singles reps pool he] at heq
      simp only [Prod.mk.injEq, Except.ok.injEq] at heq
      obtain ⟨⟨_, hr, _⟩, _⟩ := heq
      exact ⟨[], by simp [← hr], by simp⟩
    | false =>
      cases ht : next_tag bytes reader with
      | error e =>
        rw [parseLoop_tag_error cmds bytes fuel reader singles reps pool e he ht] at heq
        simp at heq
      | ok tr =>
        obtain ⟨tag, r1⟩ := tr
        cases hfind : cmds.current_descriptor.fields.find?
            (fun f => f.number == ((tag >>> 3 : Nat) : Int)) with
        | none =>
          cases hskip : read_unknown bytes r1 tag with
          | error e =>
            rw [parseLoop_unknown_error cmds bytes fuel reader singles reps pool
              tag r1 e he ht hfind hskip] at heq
            simp at heq
          | ok r2 =>
            rw [parseLoop_unknown_step cmds bytes fuel reader singles reps pool
              tag r1 r2 he ht hfind hskip] at heq
            exact ih _ _ _ _ _ _ _ _ heq
        | some d =>
          cases hval : SingleFieldValue.parse_from_reader r1 bytes
              (d.field_type cmds.all_descriptors) with
          | error e =>
            rw [parseLoop_value_error cmds bytes fuel reader singles reps pool
              tag r1 d e he ht hfind hval] at heq
            simp at heq
          | ok vr =>
            obtain ⟨value, r2⟩ := vr
            cases hrep : d.is_repeated with
            | false =>
              rw [parseLoop_single_step cmds bytes fuel reader singles reps pool
                tag r1 r2 d value he ht hfind hval hrep] at heq
              exact ih _ _ _ _ _ _ _ _ heq
            | true =>
              cases hpush : pushToFirstMatch (tag >>> 3) value reps with
              | some reps2 =>
                rw [parseLoop_repeated_push_step cmds bytes fuel reader singles
                  reps reps2 pool tag r1 r2 d value he ht hfind hval hrep hpush] at heq
                obtain ⟨ds, hds, hdecl⟩ := ih _ _ _ _ _ _ _ _ heq
                have hmap := pushToFirstMatch_map (tag >>> 3) value reps reps2 hpush
                have hdesc : reps2.map (fun f => f.descriptor) =
                    reps.map (fun f => f.descriptor) := by
                  have := congrArg (List.map Prod.fst) hmap
                  simpa [List.map_map, Function.comp] using this
                exact ⟨ds, by rw [← hdesc]; exact hds, hdecl⟩
              | none =>
                rw [parseLoop_repeated_new_step cmds bytes fuel reader singles
                  reps pool tag r1 r2 d value he ht hfind hval hrep hpush] at heq
                obtain ⟨ds, hds, hdecl⟩ := ih _ _ _ _ _ _ _ _ heq
                refine ⟨d :: ds, ?_, ?_⟩
                · rw [hds]; simp
                · intro g hg
                  rcases List.mem_cons.mp hg with rfl | hg
                  · exact ⟨List.mem_of_find?_eq_some hfind, hrep⟩
                  · exact hdecl g hg

/-- Pool accounting of the scan loop on success: no field-record or
repeated-record buffer is acquired or released, no value buffer is
released, and exactly one value buffer is acquired per repeated record
created on demand (the growth of the record list). -/
theorem parseLoop_pool_spec (cmds : CurrentMessageDescriptors) (bytes : List Nat) :
    ∀ fuel reader singles reps pool s' reps' rd' pool',
      parseLoop cmds bytes fuel reader singles reps pool = (.ok (s', reps', rd'), pool') →
      pool'.acquiredField = pool.acquiredField ∧
      pool'.releasedField = pool.releasedField ∧
      pool'.acquiredRepeated = pool.acquiredRepeated ∧
      pool'.releasedRepeated = pool.releasedRepeated ∧
      pool'.releasedSingle = pool.releasedSingle ∧
      pool'.acquiredSingle + reps.length = pool.acquiredSingle + reps'.length := by
  intro fuel
  induction fuel with
  | zero =>
    intro reader singles reps pool s' reps' rd' pool' heq
    cases he : reader.is_eof with
    | true =>
      rw [parseLoop_eof cmds bytes 0 reader singles reps pool he] at heq
      simp only [Prod.mk.injEq, Except.ok.injEq] at heq
      obtain ⟨⟨_, hr, _⟩, hp⟩ := heq
      subst hp
      simp [← hr]
    | false => simp [parseLoop, he] at heq
  | succ fuel ih =>
    intro reader singles reps pool s' reps' rd' pool' heq
    cases he : reader.is_eof with
    | true =>
      rw [parseLoop_eof cmds bytes _ reader singles reps pool he] at heq
      simp only [Prod.mk.injEq, Except.ok.injEq] at heq
      obtain ⟨⟨_, hr, _⟩, hp⟩ := heq
      subst hp
      simp [← hr]
    | false =>
      cases ht : next_tag bytes reader with
      | error e =>
        rw [parseLoop_tag_error cmds bytes fuel reader singles reps pool e he ht] at heq
        simp at heq
      | ok tr =>
        obtain ⟨tag, r1⟩ := tr
        cases hfind : cmds.current_descriptor.fields.find?
            (fun f => f.number == ((tag >>> 3 : Nat) : Int)) with
        | none =>
          cases hskip : read_unknown bytes r1 tag with
          | error e =>
            rw [parseLoop_unknown_error cmds bytes fuel reader singles reps pool
              tag r1 e he ht hfind hskip] at heq
            simp at heq
          | ok r2 =>
            rw [parseLoop_unknown_step cmds bytes fuel reader singles reps pool
              tag r1 r2 he ht hfind hskip] at heq
            exact ih _ _ _ _ _ _ _ _ heq
        | some d =>
          cases hval : SingleFieldValue.parse_from_reader r1 bytes
              (d.field_type cmds.all_descriptors) with
          | error e =>
            rw [parseLoop_value_error cmds bytes fuel reader singles reps pool
              tag r1 d e he ht hfind hval] at heq
            simp at heq
          | ok vr =>
            obtain ⟨value, r2⟩ := vr
            cases hrep : d.is_repeated with
            | false =>
              rw [parseLoop_single_step cmds bytes fuel reader singles reps pool
                tag r1 r2 d value he ht hfind hval hrep] at heq
              exact ih _ _ _ _ _ _ _ _ heq
            | true =>
              cases hpush : pushToFirstMatch (tag >>> 3) value reps with
              | some reps2 =>
                rw [parseLoop_repeated_push_step cmds bytes fuel reader singles
                  reps reps2 pool tag r1 r2 d value he ht hfind hval hrep hpush] at heq
                have hlen : reps2.length = reps.length := by
                  have := congrArg List.length
                    (pushToFirstMatch_map (tag >>> 3) value reps reps2 hpush)
                  simpa using this
                have := ih _ _ _ _ _ _ _ _ heq
                omega
              | none =>
                rw [parseLoop_repeated_new_step cmds bytes fuel reader singles
                  reps pool tag r1 r2 d value he ht hfind hval hrep hpush] at heq
                have := ih _ _ _ _ _ _ _ _ heq
                have hp2 : (pool.get_single_field_val_vec).2.acquiredSingle =
                    pool.acquiredSingle + 1 ∧
                    (pool.get_single_field_val_vec).2.releasedSingle =
                      pool.releasedSingle ∧
                    (pool.get_single_field_val_vec).2.acquiredField =
                      pool.acquiredField ∧
                    (pool.get_single_field_val_vec).2.releasedField =
                      pool.releasedField ∧
                    (pool.get_single_field_val_vec).2.acquiredRepeated =
                      pool.acquiredRepeated ∧
                    (pool.get_single_field_val_vec).2.releasedRepeated =
                      pool.releasedRepeated := by
                  exact ⟨rfl, rfl, rfl, rfl, rfl, rfl⟩
                obtain ⟨h1, h2, h3, h4, h5, h6⟩ := this
                simp only [List.length_append, List.length_cons, List.length_nil] at h6
                omega

/-- Inversion of `parse_from_reader` on success: the two record buffers
are acquired, the declared fields are seeded, the scan loop runs, and the
singular records pass through the sort-and-collapse post-pass. -/
theorem parse_from_reader_spec (fuel : Nat) (reader : BytesReader) (bytes : List Nat)
    (cmds : CurrentMessageDescriptors) (pool : ArrayPool)
    (msg : LazliyParsedMessage) (rd' : BytesReader) (pool' : ArrayPool)
    (h : LazliyParsedMessage.parse_from_reader fuel reader bytes cmds pool =
      (.ok (msg, rd'), pool')) :
    ∃ seeded reps0 pool3 raw,
      seedSingles cmds.all_descriptors cmds.current_descriptor.fields = .ok seeded ∧
      seedRepeated ((pool.get_field_vec).2.get_repeated_field_vec).2
        cmds.current_descriptor.fields = (reps0, pool3) ∧
      parseLoop cmds bytes fuel reader seeded reps0 pool3 =
        (.ok (raw, msg.repeated_fields, rd'), pool') ∧
      msg.single_fields =
        retain_last_by_key (sort_by_key (fun f => f.tag) raw) (fun f => f.tag) := by
  simp only [LazliyParsedMessage.parse_from_reader, ArrayPool.get_field_vec,
    ArrayPool.get_repeated_field_vec, List.nil_append] at h
  cases hseed : seedSingles cmds.all_descriptors cmds.current_descriptor.fields with
  | error e => rw [hseed] at h; simp at h
  | ok seeded =>
    rw [hseed] at h
    rcases hsr : seedRepeated ((pool.get_field_vec).2.get_repeated_field_vec).2
        cmds.current_descriptor.fields with ⟨reps0, pool3⟩
    simp only [ArrayPool.get_field_vec, ArrayPool.get_repeated_field_vec] at hsr
    rw [hsr] at h
    dsimp only at h
    rcases hpl : parseLoop cmds bytes fuel reader seeded reps0 pool3 with ⟨res, pool4⟩
    rw [hpl] at h
    cases res with
    | error e => simp at h
    | ok tri =>
      obtain ⟨raw, reps2, rd2⟩ := tri
      simp only [Prod.mk.injEq, Except.ok.injEq] at h
      obtain ⟨⟨hmsg, hrd⟩, hpool⟩ := h
      subst hmsg
      subst hrd
      subst hpool
      exact ⟨seeded, reps0, pool3, raw, rfl, rfl, hpl, rfl⟩

/-! Lemmas about the visitor bridge folds. -/

theorem seqFold_length
    (visit : SingleFieldValue → ArrayPool → Except Failure VisitValue × ArrayPool) :
    ∀ vals pool ws pool', seqFold visit vals pool = (.ok ws, pool') →
      ws.length = vals.length := by
  intro vals
  induction vals with
  | nil =>
    intro pool ws pool' h
    simp only [seqFold, Prod.mk.injEq, Except.ok.injEq] at h
    simp [← h.1]
  | cons v vs ih =>
    intro pool ws pool' h
    simp only [seqFold] at h
    rcases hv : visit v pool with ⟨res, pool1⟩
    rw [hv] at h
    cases res with
    | error e => simp at h
    | ok w =>
      dsimp only at h
      rcases hs : seqFold visit vs pool1 with ⟨res2, pool2⟩
      rw [hs] at h
      cases res2 with
      | error e => simp at h
      | ok ws2 =>
        dsimp only at h
        simp only [Prod.mk.injEq, Except.ok.injEq] at h
        rw [← h.1, List.length_cons, ih pool1 ws2 pool2 hs, List.length_cons]

/-- The sequence visitor distributes over concatenation of the stored
values: elements are emitted in stored order. -/
theorem seqFold_append
    (visit : SingleFieldValue → ArrayPool → Except Failure VisitValue × ArrayPool) :
    ∀ l1 l2 pool, seqFold visit (l1 ++ l2) pool =
      match seqFold visit l1 pool with
      | (.error e, p) => (.error e, p)
      | (.ok ws1, p) =>
        match seqFold visit l2 p with
        | (.error e, p2) => (.error e, p2)
        | (.ok ws2, p2) => (.ok (ws1 ++ ws2), p2) := by
  intro l1
  induction l1 with
  | nil =>
    intro l2 pool
    simp only [List.nil_append, seqFold]
    rcases h2 : seqFold visit l2 pool with ⟨res2, pool2⟩
    cases res2 <;> simp
  | cons v vs ih =>
    intro l2 pool
    simp only [List.cons_append, seqFold]
    rcases hv : visit v pool with ⟨res, pool1⟩
    cases res with
    | error e => simp
    | ok w =>
      dsimp only
      rw [show vs.append l2 = vs ++ l2 from rfl, ih l2 pool1]
      rcases h1 : seqFold visit vs pool1 with ⟨res1, pool2⟩
      cases res1 with
      | error e => simp
      | ok ws1 =>
        dsimp only
        rcases h2 : seqFold visit l2 pool2 with ⟨res2, pool3⟩
        cases res2 <;> simp

theorem poolBalanced_refl (p : ArrayPool) : PoolBalanced p p := ⟨rfl, rfl, rfl⟩

theorem poolBalanced_trans {p q r : ArrayPool}
    (h1 : PoolBalanced p q) (h2 : PoolBalanced q r) : PoolBalanced p r := by
  obtain ⟨a1, b1, c1⟩ := h1
  obtain ⟨a2, b2, c2⟩ := h2
  exact ⟨by omega, by omega, by omega⟩

theorem seqFold_balanced
    (visit : SingleFieldValue → ArrayPool → Except Failure VisitValue × ArrayPool)
    (Hvisit : ∀ v p w p', visit v p = (.ok w, p') → PoolBalanced p p') :
    ∀ vals pool ws pool', seqFold visit vals pool = (.ok ws, pool') →
      PoolBalanced pool pool' := by
  intro vals
  induction vals with
  | nil =>
    intro pool ws pool' h
    simp only [seqFold, Prod.mk.injEq, Except.ok.injEq] at h
    rw [← h.2]
    exact poolBalanced_refl pool
  | cons v vs ih =>
    intro pool ws pool' h
    simp only [seqFold] at h
    rcases hv : visit v pool with ⟨res, pool1⟩
    rw [hv] at h
    cases res with
    | error e => simp at h
    | ok w =>
      dsimp only at h
      rcases hs : seqFold visit vs pool1 with ⟨res2, pool2⟩
      rw [hs] at h
      cases res2 with
      | error e => simp at h
      | ok ws2 =>
        dsimp only at h
        simp only [Prod.mk.injEq, Except.ok.injEq] at h
        rw [← h.2]
        exact poolBalanced_trans (Hvisit v pool w pool1 hv) (ih pool1 ws2 pool2 hs)

/-- The emitted keys of a completed map traversal: all singular fields'
declared names first (in record order), then all repeated fields'
declared names (in record order). -/
theorem fieldsFold_keys
    (visit : FieldDescriptor → SingleFieldValue → ArrayPool →
      Except Failure VisitValue × ArrayPool) :
    ∀ singles reps pool es pool',
      fieldsFold visit singles reps pool = (.ok es, pool') →
      es.map Prod.fst =
        singles.map (fun f => f.descriptor.name) ++
          reps.map (fun f => f.descriptor.name) := by
  intro singles
  induction singles with
  | nil =>
    intro reps
    induction reps with
    | nil =>
      intro pool es pool' h
      simp only [fieldsFold, repsFold, Prod.mk.injEq, Except.ok.injEq] at h
      simp [← h.1]
    | cons r rest ihr =>
      intro pool es pool' h
      simp only [fieldsFold, repsFold] at h
      rcases hs : seqFold (visit r.descriptor) r.value pool with ⟨res, pool1⟩
      rw [hs] at h
      cases res with
      | error e => simp at h
      | ok ws =>
        dsimp only at h
        rcases hf : repsFold visit rest (pool1.return_single_field_val_vec r.value)
            with ⟨res2, pool2⟩
        rw [hf] at h
        cases res2 with
        | error e => simp at h
        | ok es2 =>
          dsimp only at h
          simp only [Prod.mk.injEq, Except.ok.injEq] at h
          rw [← h.1]
          simpa using ihr _ _ _ hf
  | cons s rest ihs =>
    intro reps pool es pool' h
    simp only [fieldsFold] at h
    rcases hstep : (if s.descriptor.field_label = FieldLabel.Optional then
        match visit s.descriptor s.value pool with
        | (.error e, pool1) => (.error e, pool1)
        | (.ok w, pool1) => (.ok (VisitValue.someV w), pool1)
      else visit s.descriptor s.value pool) with ⟨res, pool1⟩
    rw [hstep] at h
    cases res with
    | error e => simp at h
    | ok w =>
      dsimp only at h
      rcases hf : fieldsFold visit rest reps pool1 with ⟨res2, pool2⟩
      rw [hf] at h
      cases res2 with
      | error e => simp at h
      | ok es2 =>
        dsimp only at h
        simp only [Prod.mk.injEq, Except.ok.injEq] at h
        rw [← h.1]
        simpa using ihs _ _ _ _ hf

/-- Pool accounting of a completed map traversal: field-record and
repeated-record shapes stay balanced, and exactly one value buffer is
released per repeated record visited, on top of the balanced
acquisitions of nested decodes. -/
theorem fieldsFold_balanced
    (visit : FieldDescriptor → SingleFieldValue → ArrayPool →
      Except Failure VisitValue × ArrayPool)
    (Hvisit : ∀ fd v p w p', visit fd v p = (.ok w, p') → PoolBalanced p p') :
    ∀ singles reps pool es pool',
      fieldsFold visit singles reps pool = (.ok es, pool') →
      pool'.acquiredField + pool.releasedField =
        pool.acquiredField + pool'.releasedField ∧
      pool'.acquiredRepeated + pool.releasedRepeated =
        pool.acquiredRepeated + pool'.releasedRepeated ∧
      pool'.acquiredSingle + pool.releasedSingle + reps.length =
        pool.acquiredSingle + pool'.releasedSingle := by
  intro singles
  induction singles with
  | nil =>
    intro reps
    induction reps with
    | nil =>
      intro pool es pool' h
      simp only [fieldsFold, repsFold, Prod.mk.injEq, Except.ok.injEq] at h
      rw [← h.2]
      simp
    | cons r rest ihr =>
      intro pool es pool' h
      simp only [fieldsFold, repsFold] at h
      rcases hs : seqFold (visit r.descriptor) r.value pool with ⟨res, pool1⟩
      rw [hs] at h
      cases res with
      | error e => simp at h
      | ok ws =>
        dsimp only at h
        rcases hf : repsFold visit rest (pool1.return_single_field_val_vec r.value)
            with ⟨res2, pool2⟩
        rw [hf] at h
        cases res2 with
        | error e => simp at h
        | ok es2 =>
          dsimp only at h
          simp only [Prod.mk.injEq, Except.ok.injEq] at h
          obtain ⟨_, hp⟩ := h
          subst hp
          obtain ⟨f1, r1, s1⟩ := seqFold_balanced (visit r.descriptor)
            (fun v p w p' hw => Hvisit r.descriptor v p w p' hw) r.value pool ws pool1 hs
          obtain ⟨f2, r2, s2⟩ := ihr _ _ _ hf
          have e1 : (pool1.return_single_field_val_vec r.value).releasedSingle =
            pool1.releasedSingle + 1 := rfl
          have e2 : (pool1.return_single_field_val_vec r.value).acquiredSingle =
            pool1.acquiredSingle := rfl
          have e3 : (pool1.return_single_field_val_vec r.value).acquiredField =
            pool1.acquiredField := rfl
          have e4 : (pool1.return_single_field_val_vec r.value).releasedField =
            pool1.releasedField := rfl
          have e5 : (pool1.return_single_field_val_vec r.value).acquiredRepeated =
            pool1.acquiredRepeated := rfl
          have e6 : (pool1.return_single_field_val_vec r.value).releasedRepeated =
            pool1.releasedRepeated := rfl
          refine ⟨by omega, by omega, ?_⟩
          simp only [List.length_cons]
          omega
  | cons s rest ihs =>
    intro reps pool es pool' h
    simp only [fieldsFold] at h
    by_cases hopt : s.descriptor.field_label = FieldLabel.Optional
    · rw [if_pos hopt] at h
      rcases hv : visit s.descriptor s.value pool with ⟨vres, pool1⟩
      rw [hv] at h
      cases vres with
      | error e => simp at h
      | ok w =>
        dsimp only at h
        rcases hf : fieldsFold visit rest reps pool1 with ⟨res2, pool2⟩
        rw [hf] at h
        cases res2 with
        | error e => simp at h
        | ok es2 =>
          dsimp only at h
          simp only [Prod.mk.injEq, Except.ok.injEq] at h
          obtain ⟨_, hp⟩ := h
          subst hp
          obtain ⟨f1, r1, s1⟩ := Hvisit s.descriptor s.value pool w pool1 hv
          obtain ⟨f2, r2, s2⟩ := ihs reps pool1 es2 pool2 hf
          exact ⟨by omega, by omega, by omega⟩
    · rw [if_neg hopt] at h
      rcases hv : visit s.descriptor s.value pool with ⟨vres, pool1⟩
      rw [hv] at h
      cases vres with
      | error e => simp at h
      | ok w =>
        dsimp only at h
        rcases hf : fieldsFold visit rest reps pool1 with ⟨res2, pool2⟩
        rw [hf] at h
        cases res2 with
        | error e => simp at h
        | ok es2 =>
          dsimp only at h
          simp only [Prod.mk.injEq, Except.ok.injEq] at h
          obtain ⟨_, hp⟩ := h
          subst hp
          obtain ⟨f1, r1, s1⟩ := Hvisit s.descriptor s.value pool w pool1 hv
          obtain ⟨f2, r2, s2⟩ := ihs reps pool1 es2 pool2 hf
          exact ⟨by omega, by omega, by omega⟩

/-- Inversion of a successful decode-and-traverse call: the input is
parsed into a message, the map traversal completes, and the two record
buffers are returned afterwards. -/
theorem innerDeserializeAny_spec (fuel : Nat) (ds : Descriptors)
    (cur : MessageDescriptor) (input : List Nat) (pool : ArrayPool)
    (v : VisitValue) (pool' : ArrayPool)
    (h : innerDeserializeAny (fuel + 1) ds cur input pool = (.ok v, pool')) :
    ∃ msg rd pool1 entries pool2,
      LazliyParsedMessage.parse_from_reader (input.length + 1)
        (BytesReader.from_bytes input) input ⟨cur, ds⟩ pool = (.ok (msg, rd), pool1) ∧
      fieldsFold (fun fd w p => visitValueGo (innerDeserializeAny fuel ds) ds fd w p)
        msg.single_fields msg.repeated_fields pool1 = (.ok entries, pool2) ∧
      v = .mapV entries ∧
      pool' = ((pool2.return_field_vec []).return_repeated_field_vec []) := by
  simp only [innerDeserializeAny] at h
  rcases hp : LazliyParsedMessage.parse_from_reader (input.length + 1)
      (BytesReader.from_bytes input) input ⟨cur, ds⟩ pool with ⟨pres, pool1⟩
  rw [hp] at h
  cases pres with
  | error e => simp at h
  | ok mr =>
    obtain ⟨msg, rd⟩ := mr
    dsimp only at h
    rcases hf : fieldsFold
        (fun fd w p => visitValueGo (innerDeserializeAny fuel ds) ds fd w p)
        msg.single_fields msg.repeated_fields pool1 with ⟨res, pool2⟩
    rw [hf] at h
    cases res with
    | error e => simp at h
    | ok entries =>
      dsimp only at h
      simp only [Prod.mk.injEq, Except.ok.injEq] at h
      exact ⟨msg, rd, pool1, entries, pool2, rfl, hf, h.1.symm, h.2.symm⟩

/-- A successful decode-and-traverse call leaves the pool balanced: per
buffer shape, as many releases as acquisitions happened during the call
(including all nested lazy decodes). -/
theorem innerDeserializeAny_balanced :
    ∀ fuel ds cur input pool v pool',
      innerDeserializeAny fuel ds cur input pool = (.ok v, pool') →
      PoolBalanced pool pool' := by
  intro fuel
  induction fuel with
  | zero =>
    intro ds cur input pool v pool' h
    simp [innerDeserializeAny] at h
  | succ fuel ih =>
    intro ds cur input pool v pool' h
    obtain ⟨msg, rd, pool1, entries, pool2, hp, hf, _, hret⟩ :=
      innerDeserializeAny_spec fuel ds cur input pool v pool' h
    obtain ⟨seeded, reps0, pool3, raw, hseed, hsr, hpl, _⟩ :=
      parse_from_reader_spec _ _ input ⟨cur, ds⟩ pool msg rd pool1 hp
    -- counters of the two initial buffer acquisitions
    have g1 : ((pool.get_field_vec).2.get_repeated_field_vec).2.acquiredField =
      pool.acquiredField + 1 := rfl
    have g2 : ((pool.get_field_vec).2.get_repeated_field_vec).2.releasedField =
      pool.releasedField := rfl
    have g3 : ((pool.get_field_vec).2.get_repeated_field_vec).2.acquiredRepeated =
      pool.acquiredRepeated + 1 := rfl
    have g4 : ((pool.get_field_vec).2.get_repeated_field_vec).2.releasedRepeated =
      pool.releasedRepeated := rfl
    have g5 : ((pool.get_field_vec).2.get_repeated_field_vec).2.acquiredSingle =
      pool.acquiredSingle := rfl
    have g6 : ((pool.get_field_vec).2.get_repeated_field_vec).2.releasedSingle =
      pool.releasedSingle := rfl
    -- counters through the repeated-record seeding
    have hseedrep := seedRepeated_spec cur.fields
      ((pool.get_field_vec).2.get_repeated_field_vec).2
    rw [hsr] at hseedrep
    dsimp only at hseedrep
    obtain ⟨_, _, s3, s4, s5, s6, s7, s8⟩ := hseedrep
    -- counters through the scan loop
    obtain ⟨l1, l2, l3, l4, l5, l6⟩ :=
      parseLoop_pool_spec ⟨cur, ds⟩ input _ _ _ _ _ _ _ _ _ hpl
    -- the nested visits are balanced
    have Hvisit : ∀ fd w p w' p',
        visitValueGo (innerDeserializeAny fuel ds) ds fd w p = (.ok w', p') →
        PoolBalanced p p' := by
      intro fd w p w' p' hw
      cases w with
      | LazyMessage idx data => exact ih ds _ data p w' p' hw
      | BorrowedDefaultValue inner =>
        cases inner <;> simp only [visitValueGo, Prod.mk.injEq] at hw <;>
          (try rw [← hw.2]) <;> (try exact poolBalanced_refl p)
      | _ =>
        simp only [visitValueGo, Prod.mk.injEq] at hw
        rw [← hw.2]
        exact poolBalanced_refl p
    -- counters through the traversal
    obtain ⟨b1, b2, b3⟩ := fieldsFold_balanced _ Hvisit
      msg.single_fields msg.repeated_fields pool1 entries pool2 hf
    -- counters of the two final buffer releases
    have r1 : ((pool2.return_field_vec []).return_repeated_field_vec []).acquiredField =
      pool2.acquiredField := rfl
    have r2 : ((pool2.return_field_vec []).return_repeated_field_vec []).releasedField =
      pool2.releasedField + 1 := rfl
    have r3 : ((pool2.return_field_vec []).return_repeated_field_vec []).acquiredRepeated =
      pool2.acquiredRepeated := rfl
    have r4 : ((pool2.return_field_vec []).return_repeated_field_vec []).releasedRepeated =
      pool2.releasedRepeated + 1 := rfl
    have r5 : ((pool2.return_field_vec []).return_repeated_field_vec []).acquiredSingle =
      pool2.acquiredSingle := rfl
    have r6 : ((pool2.return_field_vec []).return_repeated_field_vec []).releasedSingle =
      pool2.releasedSingle := rfl
    subst hret
    refine ⟨?_, ?_, ?_⟩ <;> omega

/-! Claim theorems. -/

/-- C1: on every wire input whose decode succeeds, the decoded message's
singular records are the post-pass (stable sort by tag, then collapse of
consecutive duplicate-tag runs keeping only the last element of each run,
`retain_last_by_key`) of the raw scan list, which consists of the seeded
defaults followed by the wire records in encounter order; hence for every
tag `T` the message holds at most one record for `T`, namely the last raw
record with tag `T` — the final wire occurrence whenever the field occurs
on the wire. -/
theorem c1_singular_last_wins (fuel : Nat) (reader : BytesReader) (bytes : List Nat)
    (cmds : CurrentMessageDescriptors) (pool : ArrayPool)
    (msg : LazliyParsedMessage) (rd' : BytesReader) (pool' : ArrayPool)
    (h : LazliyParsedMessage.parse_from_reader fuel reader bytes cmds pool =
      (.ok (msg, rd'), pool')) :
    ∃ seeded reps0 pool3 raw app,
      seedSingles cmds.all_descriptors cmds.current_descriptor.fields = .ok seeded ∧
      parseLoop cmds bytes fuel reader seeded reps0 pool3 =
        (.ok (raw, msg.repeated_fields, rd'), pool') ∧
      raw = seeded ++ app ∧
      (∀ T, msg.single_fields.filter (fun f => f.tag == T) =
        ((raw.filter (fun f => f.tag == T)).getLast?).toList) ∧
      (∀ T, (msg.single_fields.filter (fun f => f.tag == T)).length ≤ 1) := by
  obtain ⟨seeded, reps0, pool3, raw, hseed, _, hpl, hpost⟩ :=
    parse_from_reader_spec fuel reader bytes cmds pool msg rd' pool' h
  obtain ⟨app, happ, _⟩ :=
    parseLoop_singles_spec cmds bytes fuel reader seeded reps0 pool3 _ _ _ _ hpl
  refine ⟨seeded, reps0, pool3, raw, app, hseed, hpl, happ, ?_, ?_⟩
  · intro T
    rw [hpost]
    exact postpass_filter raw T
  · intro T
    rw [hpost, postpass_filter raw T]
    cases (raw.filter (fun f => f.tag == T)).getLast? <;> simp

/-- Witness for C1: the bytes `[8, 1, 8, 2]` encode singular field 1
twice, with 1 then 2; the decode resolves it to a single record holding
2. -/
theorem c1_singular_last_wins_witness :
    (LazliyParsedMessage.parse_from_reader 5 (BytesReader.from_bytes [8, 1, 8, 2])
        [8, 1, 8, 2] ⟨exInt32Msg, exInt32Ds⟩ ArrayPool.new =
      (.ok (⟨[⟨exInt32Field, .I32 2, 1⟩], []⟩, ⟨4, 4⟩),
        ⟨0, 0, 0, 0, 0, 1, 0, 1, 0⟩)) ∧
    (∃ seeded reps0 pool3 raw app,
      seedSingles exInt32Ds exInt32Msg.fields = .ok seeded ∧
      parseLoop ⟨exInt32Msg, exInt32Ds⟩ [8, 1, 8, 2] 5
          (BytesReader.from_bytes [8, 1, 8, 2]) seeded reps0 pool3 =
        (.ok (raw, ([] : List (Field RepeatedFieldValue)), ⟨4, 4⟩),
          ⟨0, 0, 0, 0, 0, 1, 0, 1, 0⟩) ∧
      raw = seeded ++ app ∧
      (∀ T, ([⟨exInt32Field, SingleFieldValue.I32 2, 1⟩] :
          List (Field SingleFieldValue)).filter (fun f => f.tag == T) =
        ((raw.filter (fun f => f.tag == T)).getLast?).toList) ∧
      (∀ T, (([⟨exInt32Field, SingleFieldValue.I32 2, 1⟩] :
          List (Field SingleFieldValue)).filter (fun f => f.tag == T)).length ≤ 1)) :=
  ⟨rfl, c1_singular_last_wins 5 (BytesReader.from_bytes [8, 1, 8, 2]) [8, 1, 8, 2]
    ⟨exInt32Msg, exInt32Ds⟩ ArrayPool.new ⟨[⟨exInt32Field, .I32 2, 1⟩], []⟩ ⟨4, 4⟩
    ⟨0, 0, 0, 0, 0, 1, 0, 1, 0⟩ rfl⟩

/-- C2: a wire occurrence of a declared repeated field appends its
decoded value at the end of that field's existing record (the first
record with the field's number), leaving all other records untouched, so
`n` occurrences accumulate a length-`n` sequence in encounter order; the
sequence visitor then emits the stored values in stored order — it
distributes over concatenation of the stored list and its output has
exactly one element per stored value. -/
theorem c2_repeated_accumulation :
    (∀ (cmds : CurrentMessageDescriptors) (bytes : List Nat) (fuel : Nat)
        (reader : BytesReader) (singles : List (Field SingleFieldValue))
        (reps reps2 : List (Field RepeatedFieldValue)) (pool : ArrayPool)
        (tag : Nat) (r1 r2 : BytesReader) (d : FieldDescriptor)
        (value : SingleFieldValue),
      reader.is_eof = false →
      next_tag bytes reader = .ok (tag, r1) →
      cmds.current_descriptor.fields.find?
        (fun f => f.number == ((tag >>> 3 : Nat) : Int)) = some d →
      SingleFieldValue.parse_from_reader r1 bytes
        (d.field_type cmds.all_descriptors) = .ok (value, r2) →
      d.is_repeated = true →
      pushToFirstMatch (tag >>> 3) value reps = some reps2 →
      parseLoop cmds bytes (fuel + 1) reader singles reps pool =
        parseLoop cmds bytes fuel r2 singles reps2 pool ∧
      ∃ pre rec post, reps = pre ++ rec :: post ∧
        (∀ g ∈ pre, g.tag ≠ tag >>> 3) ∧ rec.tag = tag >>> 3 ∧
        reps2 = pre ++ { rec with value := rec.value ++ [value] } :: post) ∧
    (∀ (visit : SingleFieldValue → ArrayPool → Except Failure VisitValue × ArrayPool)
        vals pool ws pool',
      seqFold visit vals pool = (.ok ws, pool') → ws.length = vals.length) ∧
    (∀ (visit : SingleFieldValue → ArrayPool → Except Failure VisitValue × ArrayPool)
        l1 l2 pool,
      seqFold visit (l1 ++ l2) pool =
        match seqFold visit l1 pool with
        | (.error e, p) => (.error e, p)
        | (.ok ws1, p) =>
          match seqFold visit l2 p with
          | (.error e, p2) => (.error e, p2)
          | (.ok ws2, p2) => (.ok (ws1 ++ ws2), p2)) := by
  refine ⟨?_, seqFold_length, seqFold_append⟩
  intro cmds bytes fuel reader singles reps reps2 pool tag r1 r2 d value
    he ht hfind hval hrep hpush
  exact ⟨parseLoop_repeated_push_step cmds bytes fuel reader singles reps reps2 pool
      tag r1 r2 d value he ht hfind hval hrep hpush,
    pushToFirstMatch_split (tag >>> 3) value reps reps2 hpush⟩

/-- Witness for C2: the first occurrence `[8, 1]` of repeated field 1 is
appended to the pre-seeded empty record, and a two-element stored
sequence is emitted as exactly two values. -/
theorem c2_repeated_accumulation_witness :
    (parseLoop ⟨exRepMsg, exRepDs⟩ [8, 1] 1 (BytesReader.from_bytes [8, 1]) []
        [⟨exRepField, [], 1⟩] ArrayPool.new =
      parseLoop ⟨exRepMsg, exRepDs⟩ [8, 1] 0 ⟨2, 2⟩ []
        [⟨exRepField, [.I32 1], 1⟩] ArrayPool.new ∧
      ∃ pre rec post,
        [(⟨exRepField, [], 1⟩ : Field RepeatedFieldValue)] = pre ++ rec :: post ∧
        (∀ g ∈ pre, g.tag ≠ (8 : Nat) >>> 3) ∧ rec.tag = (8 : Nat) >>> 3 ∧
        [(⟨exRepField, [SingleFieldValue.I32 1], 1⟩ : Field RepeatedFieldValue)] =
          pre ++ { rec with value := rec.value ++ [SingleFieldValue.I32 1] } :: post) ∧
    ([VisitValue.noneV, VisitValue.noneV].length =
      [SingleFieldValue.I32 1, SingleFieldValue.I32 2].length) :=
  ⟨c2_repeated_accumulation.1 ⟨exRepMsg, exRepDs⟩ [8, 1] 0
      (BytesReader.from_bytes [8, 1]) [] [⟨exRepField, [], 1⟩]
      [⟨exRepField, [.I32 1], 1⟩] ArrayPool.new 8 ⟨1, 2⟩ ⟨2, 2⟩ exRepField
      (.I32 1) rfl rfl rfl rfl rfl rfl,
    c2_repeated_accumulation.2.1 (fun _ p => (.ok .noneV, p))
      [SingleFieldValue.I32 1, SingleFieldValue.I32 2] ArrayPool.new
      [VisitValue.noneV, VisitValue.noneV] ArrayPool.new rfl⟩

/-- The computed default value follows the claimed precedence: explicit
descriptor default (borrowed), else `Null` for optional labels, else the
canonical zero value of the declared type. -/
theorem compute_default_value_cases (d : FieldDescriptor) (ds : Descriptors)
    (fd : Field SingleFieldValue)
    (h : compute_default_value_for_field d ds = .ok fd) :
    (∀ w, d.default_value = some w → fd.value = .BorrowedDefaultValue w) ∧
    (d.default_value = none → d.field_label = .Optional → fd.value = .Null) ∧
    (d.default_value = none → d.field_label ≠ .Optional →
      ∀ z, specCanonicalZero (d.field_type ds) = some z → fd.value = z) := by
  simp only [compute_default_value_for_field] at h
  rcases hdv : d.default_value with _ | w
  · rw [hdv] at h
    dsimp only at h
    by_cases hlab : d.field_label = FieldLabel.Optional
    · rw [if_pos hlab] at h
      dsimp only at h
      simp only [Except.ok.injEq] at h
      subst h
      refine ⟨?_, ?_, ?_⟩
      · intro w hw
        exact Option.noConfusion hw
      · intro _ _
        rfl
      · intro _ hopt
        exact absurd hlab hopt
    · rw [if_neg hlab] at h
      refine ⟨?_, ?_, ?_⟩
      · intro w hw
        exact Option.noConfusion hw
      · intro _ hopt
        exact absurd hopt hlab
      · intro _ _ z hz
        cases htr : d.field_type ds <;> rw [htr] at h hz <;> dsimp only at h <;>
          first
            | exact Except.noConfusion h
            | exact Option.noConfusion hz
            | (obtain rfl := (Except.ok.inj h).symm; exact Option.some.inj hz)
  · rw [hdv] at h
    dsimp only at h
    simp only [Except.ok.injEq] at h
    subst h
    refine ⟨?_, ?_, ?_⟩
    · intro w' hw'
      injection hw' with hww
      rw [← hww]
    · intro hnone
      exact Option.noConfusion hnone
    · intro hnone
      exact Option.noConfusion hnone

/-- C3: a declared non-repeated field absent from the wire still yields
exactly one record in the decoded singular fields, holding its seeded
default, whose value follows the precedence: the descriptor's explicit
default (borrowed), else `Null` if the label is optional, else the
declared type's canonical zero value. -/
theorem c3_default_synthesis (fuel : Nat) (reader : BytesReader) (bytes : List Nat)
    (cmds : CurrentMessageDescriptors) (pool : ArrayPool)
    (msg : LazliyParsedMessage) (rd' : BytesReader) (pool' : ArrayPool)
    (d : FieldDescriptor)
    (seeded : List (Field SingleFieldValue)) (reps0 : List (Field RepeatedFieldValue))
    (pool3 : ArrayPool) (raw : List (Field SingleFieldValue)) (rd2 : BytesReader)
    (pool4 : ArrayPool)
    (hd : d ∈ cmds.current_descriptor.fields)
    (hdrep : d.is_repeated = false)
    (hnodup : (cmds.current_descriptor.fields.map (fun f => u32cast f.number)).Nodup)
    (h : LazliyParsedMessage.parse_from_reader fuel reader bytes cmds pool =
      (.ok (msg, rd'), pool'))
    (hseed : seedSingles cmds.all_descriptors cmds.current_descriptor.fields = .ok seeded)
    (hsrep : seedRepeated ((pool.get_field_vec).2.get_repeated_field_vec).2
      cmds.current_descriptor.fields = (reps0, pool3))
    (hloop : parseLoop cmds bytes fuel reader seeded reps0 pool3 =
      (.ok (raw, msg.repeated_fields, rd2), pool4))
    (habsent : raw.filter (fun f => f.tag == u32cast d.number) =
      seeded.filter (fun f => f.tag == u32cast d.number)) :
    ∃ fd, compute_default_value_for_field d cmds.all_descriptors = .ok fd ∧
      msg.single_fields.filter (fun f => f.tag == u32cast d.number) = [fd] ∧
      (∀ w, d.default_value = some w → fd.value = .BorrowedDefaultValue w) ∧
      (d.default_value = none → d.field_label = .Optional → fd.value = .Null) ∧
      (d.default_value = none → d.field_label ≠ .Optional →
        ∀ z, specCanonicalZero (d.field_type cmds.all_descriptors) = some z →
          fd.value = z) := by
  obtain ⟨seeded0, reps00, pool30, raw0, hseed0, hsrep0, hloop0, hpost⟩ :=
    parse_from_reader_spec fuel reader bytes cmds pool msg rd' pool' h
  rw [hseed0] at hseed
  simp only [Except.ok.injEq] at hseed
  subst hseed
  rw [hsrep0] at hsrep
  simp only [Prod.mk.injEq] at hsrep
  obtain ⟨hr0, hp3⟩ := hsrep
  subst hr0
  subst hp3
  rw [hloop0] at hloop
  simp only [Prod.mk.injEq, Except.ok.injEq] at hloop
  obtain ⟨⟨hraw, _, _⟩, _⟩ := hloop
  subst hraw
  obtain ⟨fd, hfd, hfilter⟩ := seedSingles_filter cmds.all_descriptors
    cmds.current_descriptor.fields seeded0 d hseed0 hd hdrep hnodup
  obtain ⟨hc1, hc2, hc3⟩ := compute_default_value_cases d cmds.all_descriptors fd hfd
  refine ⟨fd, hfd, ?_, hc1, hc2, hc3⟩
  rw [hpost, postpass_filter raw0 (u32cast d.number), habsent, hfilter]
  rfl

/-- Witness for C3: decoding the empty input against a message with one
required `int32` field yields exactly one record for it, holding the
canonical zero `0`. -/
theorem c3_default_synthesis_witness :
    (LazliyParsedMessage.parse_from_reader 1 (BytesReader.from_bytes []) []
        ⟨exInt32Msg, exInt32Ds⟩ ArrayPool.new =
      (.ok (⟨[⟨exInt32Field, .I32 0, 1⟩], []⟩, ⟨0, 0⟩),
        ⟨0, 0, 0, 0, 0, 1, 0, 1, 0⟩)) ∧
    (∃ fd, compute_default_value_for_field exInt32Field exInt32Ds = .ok fd ∧
      ([(⟨exInt32Field, SingleFieldValue.I32 0, 1⟩ : Field SingleFieldValue)]).filter
        (fun f => f.tag == u32cast exInt32Field.number) = [fd] ∧
      (∀ w, exInt32Field.default_value = some w →
        fd.value = .BorrowedDefaultValue w) ∧
      (exInt32Field.default_value = none →
        exInt32Field.field_label = .Optional → fd.value = .Null) ∧
      (exInt32Field.default_value = none →
        exInt32Field.field_label ≠ .Optional →
        ∀ z, specCanonicalZero (exInt32Field.field_type exInt32Ds) = some z →
          fd.value = z)) :=
  ⟨rfl,
    c3_default_synthesis 1 (BytesReader.from_bytes []) [] ⟨exInt32Msg, exInt32Ds⟩
      ArrayPool.new ⟨[⟨exInt32Field, .I32 0, 1⟩], []⟩ ⟨0, 0⟩
      ⟨0, 0, 0, 0, 0, 1, 0, 1, 0⟩ exInt32Field
      [⟨exInt32Field, .I32 0, 1⟩] [] ⟨0, 0, 0, 0, 0, 1, 0, 1, 0⟩
      [⟨exInt32Field, .I32 0, 1⟩] ⟨0, 0⟩ ⟨0, 0, 0, 0, 0, 1, 0, 1, 0⟩
      (List.mem_cons_self exInt32Field []) rfl (by decide) rfl rfl rfl rfl rfl⟩

/-- Counterexample to C4 as stated: decoding an absent optional `int32`
field (resolved value `Null`) surfaces it as a visit-none call WRAPPED
inside a visit-some (`someV noneV`), not as a bare visit-none — the
optional branch of `MessageFieldDeserializer::deserialize_any` calls
`visit_some` unconditionally. -/
theorem c4_optional_null_counterexample :
    (innerDeserializeAny 2 exOptDs exOptMsg [] ArrayPool.new).1 =
      .ok (.mapV [("a", .someV .noneV)]) ∧
    VisitValue.someV VisitValue.noneV ≠ VisitValue.noneV :=
  ⟨rfl, fun hcon => VisitValue.noConfusion hcon⟩

/-- C4 amended: a singular field whose label is optional is always
surfaced wrapped in a visit-some; a `Null` resolved value yields a
visit-none inside that wrapper, and any other value yields its resolved
value inside the wrapper. -/
theorem c4_optional_wrapped_in_some (fuel : Nat) (ds : Descriptors)
    (s : Field SingleFieldValue) (rest : List (Field SingleFieldValue))
    (reps : List (Field RepeatedFieldValue)) (pool : ArrayPool)
    (es : List (String × VisitValue)) (pool' : ArrayPool)
    (hopt : s.descriptor.field_label = .Optional)
    (h : fieldsFold (fun fd w p => visitValueGo (innerDeserializeAny fuel ds) ds fd w p)
      (s :: rest) reps pool = (.ok es, pool')) :
    ∃ w pool1 rest_es,
      visitValue fuel ds s.descriptor s.value pool = (.ok w, pool1) ∧
      es = (s.descriptor.name, .someV w) :: rest_es ∧
      (s.value = .Null → w = .noneV) := by
  simp only [fieldsFold] at h
  rw [if_pos hopt] at h
  rcases hv : visitValueGo (innerDeserializeAny fuel ds) ds s.descriptor s.value pool
    with ⟨vres, pool1⟩
  rw [hv] at h
  cases vres with
  | error e => simp at h
  | ok w =>
    dsimp only at h
    rcases hf : fieldsFold
        (fun fd w p => visitValueGo (innerDeserializeAny fuel ds) ds fd w p)
        rest reps pool1 with ⟨res2, pool2⟩
    rw [hf] at h
    cases res2 with
    | error e => simp at h
    | ok es2 =>
      dsimp only at h
      simp only [Prod.mk.injEq, Except.ok.injEq] at h
      refine ⟨w, pool1, es2, hv, h.1.symm, ?_⟩
      intro hnull
      rw [hnull] at hv
      simp only [visitValueGo, Prod.mk.injEq, Except.ok.injEq] at hv
      exact hv.1.symm

/-- Witness for C4 amended: the absent optional field of `exOptMsg`
resolves to `Null` and is emitted as `someV noneV` under the key `a`. -/
theorem c4_optional_wrapped_in_some_witness :
    ∃ w pool1 rest_es,
      visitValue 1 exOptDs exOptField SingleFieldValue.Null ArrayPool.new =
        (.ok w, pool1) ∧
      ([("a", VisitValue.someV VisitValue.noneV)] : List (String × VisitValue)) =
        ("a", VisitValue.someV w) :: rest_es ∧
      (SingleFieldValue.Null = SingleFieldValue.Null → w = VisitValue.noneV) :=
  c4_optional_wrapped_in_some 1 exOptDs ⟨exOptField, .Null, 1⟩ [] [] ArrayPool.new
    [("a", .someV .noneV)] ArrayPool.new rfl rfl

/-- C5: decoding a message-typed field stores only the borrowed
length-delimited byte span together with the submessage descriptor
(`LazyMessage`), without examining or recursing into that span — whatever
its content; the nested message is decoded only when the visitor bridge
visits the value, at which point the full wire decoder is re-entered on
the stored span with the stored descriptor. -/
theorem c5_lazy_submessage :
    (∀ (r : BytesReader) (bytes : List Nat) (idx : Nat),
      SingleFieldValue.parse_from_reader r bytes (.Message idx) =
        match read_bytes bytes r with
        | .error e => .error e
        | .ok (data, r') => .ok (.LazyMessage idx data, r')) ∧
    (∀ (fuel : Nat) (ds : Descriptors) (fd : FieldDescriptor) (idx : Nat)
        (data : List Nat) (pool : ArrayPool),
      visitValue fuel ds fd (.LazyMessage idx data) pool =
        innerDeserializeAny fuel ds (ds.getMessage idx) data pool) := by
  constructor
  · intro r bytes idx
    rcases hrb : read_bytes bytes r with e | dr
    · rw [SingleFieldValue.parse_from_reader, hrb]
      rfl
    · obtain ⟨data, r'⟩ := dr
      rw [SingleFieldValue.parse_from_reader, hrb]
      rfl
  · intro fuel ds fd idx data pool
    rfl

/-- The scan loop never releases a buffer, on any path (success or
failure): the release counters of the resulting pool are unchanged. -/
theorem parseLoop_releases (cmds : CurrentMessageDescriptors) (bytes : List Nat) :
    ∀ fuel reader singles reps pool,
      (parseLoop cmds bytes fuel reader singles reps pool).2.releasedSingle =
        pool.releasedSingle ∧
      (parseLoop cmds bytes fuel reader singles reps pool).2.releasedField =
        pool.releasedField ∧
      (parseLoop cmds bytes fuel reader singles reps pool).2.releasedRepeated =
        pool.releasedRepeated := by
  intro fuel
  induction fuel with
  | zero =>
    intro reader singles reps pool
    cases he : reader.is_eof <;> simp [parseLoop, he]
  | succ fuel ih =>
    intro reader singles reps pool
    cases he : reader.is_eof with
    | true =>
      rw [parseLoop_eof cmds bytes _ reader singles reps pool he]
      exact ⟨rfl, rfl, rfl⟩
    | false =>
      cases ht : next_tag bytes reader with
      | error e =>
        rw [parseLoop_tag_error cmds bytes fuel reader singles reps pool e he ht]
        exact ⟨rfl, rfl, rfl⟩
      | ok tr =>
        obtain ⟨tag, r1⟩ := tr
        cases hfind : cmds.current_descriptor.fields.find?
            (fun f => f.number == ((tag >>> 3 : Nat) : Int)) with
        | none =>
          cases hskip : read_unknown bytes r1 tag with
          | error e =>
            rw [parseLoop_unknown_error cmds bytes fuel reader singles reps pool
              tag r1 e he ht hfind hskip]
            exact ⟨rfl, rfl, rfl⟩
          | ok r2 =>
            rw [parseLoop_unknown_step cmds bytes fuel reader singles reps pool
              tag r1 r2 he ht hfind hskip]
            exact ih r2 singles reps pool
        | some d =>
          cases hval : SingleFieldValue.parse_from_reader r1 bytes
              (d.field_type cmds.all_descriptors) with
          | error e =>
            rw [parseLoop_value_error cmds bytes fuel reader singles reps pool
              tag r1 d e he ht hfind hval]
            exact ⟨rfl, rfl, rfl⟩
          | ok vr =>
            obtain ⟨value, r2⟩ := vr
            cases hrep : d.is_repeated with
            | false =>
              rw [parseLoop_single_step cmds bytes fuel reader singles reps pool
                tag r1 r2 d value he ht hfind hval hrep]
              exact ih r2 _ reps pool
            | true =>
              cases hpush : pushToFirstMatch (tag >>> 3) value reps with
              | some reps2 =>
                rw [parseLoop_repeated_push_step cmds bytes fuel reader singles
                  reps reps2 pool tag r1 r2 d value he ht hfind hval hrep hpush]
                exact ih r2 singles reps2 pool
              | none =>
                rw [parseLoop_repeated_new_step cmds bytes fuel reader singles
                  reps pool tag r1 r2 d value he ht hfind hval hrep hpush]
                obtain ⟨i1, i2, i3⟩ := ih r2 singles
                  (reps ++ [{ descriptor := d, tag := tag >>> 3, value := [value] }])
                  (pool.get_single_field_val_vec).2
                exact ⟨i1, i2, i3⟩

/-- A wire-parsing failure drops the buffers acquired for the decode
without returning any of them to the pool: no release counter moves. -/
theorem parse_from_reader_error_releases (fuel : Nat) (reader : BytesReader)
    (bytes : List Nat) (cmds : CurrentMessageDescriptors) (pool : ArrayPool)
    (e : Failure) (pool' : ArrayPool)
    (h : LazliyParsedMessage.parse_from_reader fuel reader bytes cmds pool =
      (.error e, pool')) :
    pool'.releasedSingle = pool.releasedSingle ∧
    pool'.releasedField = pool.releasedField ∧
    pool'.releasedRepeated = pool.releasedRepeated := by
  simp only [LazliyParsedMessage.parse_from_reader, ArrayPool.get_field_vec,
    ArrayPool.get_repeated_field_vec, List.nil_append] at h
  cases hseed : seedSingles cmds.all_descriptors cmds.current_descriptor.fields with
  | error e2 =>
    rw [hseed] at h
    dsimp only at h
    simp only [Prod.mk.injEq] at h
    rw [← h.2]
    exact ⟨rfl, rfl, rfl⟩
  | ok seeded =>
    rw [hseed] at h
    rcases hsr : seedRepeated ((pool.get_field_vec).2.get_repeated_field_vec).2
        cmds.current_descriptor.fields with ⟨reps0, pool3⟩
    have hseedrep := seedRepeated_spec cmds.current_descriptor.fields
      ((pool.get_field_vec).2.get_repeated_field_vec).2
    rw [hsr] at hseedrep
    dsimp only at hseedrep
    obtain ⟨_, _, _, s4, _, s6, _, s8⟩ := hseedrep
    simp only [ArrayPool.get_field_vec, ArrayPool.get_repeated_field_vec] at hsr
    rw [hsr] at h
    dsimp only at h
    rcases hpl : parseLoop cmds bytes fuel reader seeded reps0 pool3 with ⟨res, pool4⟩
    rw [hpl] at h
    obtain ⟨l1, l2, l3⟩ := parseLoop_releases cmds bytes fuel reader seeded reps0 pool3
    rw [hpl] at l1 l2 l3
    dsimp only at l1 l2 l3
    cases res with
    | ok tri => simp at h
    | error e2 =>
      dsimp only at h
      simp only [Prod.mk.injEq] at h
      rw [← h.2]
      refine ⟨?_, ?_, ?_⟩
      · rw [l1, s4]
        rfl
      · rw [l2, s6]
        rfl
      · rw [l3, s8]
        rfl

/-- Counterexample to C6 as stated: on the malformed input `[0x80]`
(truncated varint) the decode aborts during the wire-parsing phase after
acquiring the two record buffers, and neither is released back to the
pool — the acquired-buffer count exceeds the released count on this exit
path. -/
theorem c6_release_counterexample :
    (innerDeserializeAny 1 exInt32Ds exInt32Msg [128] ArrayPool.new).1 =
      .error (.err .MalformedInput) ∧
    (innerDeserializeAny 1 exInt32Ds exInt32Msg [128] ArrayPool.new).2.acquiredField = 1 ∧
    (innerDeserializeAny 1 exInt32Ds exInt32Msg [128] ArrayPool.new).2.releasedField = 0 ∧
    (innerDeserializeAny 1 exInt32Ds exInt32Msg [128] ArrayPool.new).2.acquiredRepeated = 1 ∧
    (innerDeserializeAny 1 exInt32Ds exInt32Msg [128] ArrayPool.new).2.releasedRepeated = 0 :=
  ⟨rfl, rfl, rfl, rfl, rfl⟩

/-- C6 amended: on every SUCCESSFUL decode-and-traverse exit every buffer
acquired from the pool during the call (including nested decodes) is
released back exactly once — the per-shape acquire and release counts
balance; on a wire-parsing failure, by contrast, the acquired buffers are
dropped without any release back to the pool. -/
theorem c6_buffers_balanced_on_success :
    (∀ fuel ds cur input pool v pool',
      innerDeserializeAny fuel ds cur input pool = (.ok v, pool') →
      PoolBalanced pool pool') ∧
    (∀ fuel reader bytes cmds pool e pool',
      LazliyParsedMessage.parse_from_reader fuel reader bytes cmds pool =
        (.error e, pool') →
      pool'.releasedSingle = pool.releasedSingle ∧
      pool'.releasedField = pool.releasedField ∧
      pool'.releasedRepeated = pool.releasedRepeated) :=
  ⟨innerDeserializeAny_balanced, parse_from_reader_error_releases⟩

/-- Witness for C6 amended: the successful decode of `[8, 42]` balances
all three shapes, and the failing parse of `[0x80]` releases nothing. -/
theorem c6_buffers_balanced_on_success_witness :
    PoolBalanced ArrayPool.new ⟨0, 1, 1, 0, 0, 1, 1, 1, 1⟩ ∧
    ((⟨0, 0, 0, 0, 0, 1, 0, 1, 0⟩ : ArrayPool).releasedSingle =
        ArrayPool.new.releasedSingle ∧
      (⟨0, 0, 0, 0, 0, 1, 0, 1, 0⟩ : ArrayPool).releasedField =
        ArrayPool.new.releasedField ∧
      (⟨0, 0, 0, 0, 0, 1, 0, 1, 0⟩ : ArrayPool).releasedRepeated =
        ArrayPool.new.releasedRepeated) :=
  ⟨c6_buffers_balanced_on_success.1 1 exInt32Ds exInt32Msg [8, 42] ArrayPool.new
      (.mapV [("a", .i32 42)]) ⟨0, 1, 1, 0, 0, 1, 1, 1, 1⟩ rfl,
    c6_buffers_balanced_on_success.2 1 (BytesReader.from_bytes [128]) [128]
      ⟨exInt32Msg, exInt32Ds⟩ ArrayPool.new (.err .MalformedInput)
      ⟨0, 0, 0, 0, 0, 1, 0, 1, 0⟩ rfl⟩

/-! Malformed wire data always surfaces as the typed `MalformedInput`
decode error: every failure of the reader primitives is that error, and
the scan loop propagates reader failures unchanged — it can never
produce a Rust `panic`. -/

/-- A failing byte read is the typed `MalformedInput` error. -/
theorem readU8_error (bytes : List Nat) (r : BytesReader) (e : Failure)
    (h : readU8 bytes r = .error e) : e = .err .MalformedInput := by
  unfold readU8 at h
  split at h
  · exact Except.noConfusion h
  · exact (Except.error.inj h).symm

/-- A failing varint accumulation is the typed `MalformedInput` error. -/
theorem readVarintAux_error (bytes : List Nat) :
    ∀ rem r shift acc e, readVarintAux bytes rem r shift acc = .error e →
      e = .err .MalformedInput := by
  intro rem
  induction rem with
  | zero =>
    intro r shift acc e h
    exact (Except.error.inj h).symm
  | succ rem ih =>
    intro r shift acc e h
    cases hu : readU8 bytes r with
    | error e1 =>
      have hstep : readVarintAux bytes (rem + 1) r shift acc = .error e1 := by
        rw [readVarintAux, hu]
        rfl
      rw [hstep] at h
      obtain rfl := Except.error.inj h
      exact readU8_error bytes r _ hu
    | ok br =>
      obtain ⟨b, r1⟩ := br
      have hstep : readVarintAux bytes (rem + 1) r shift acc =
          if b < 128 then .ok ((acc + b % 128 * 2 ^ shift) % 2 ^ 64, r1)
          else readVarintAux bytes rem r1 (shift + 7) (acc + b % 128 * 2 ^ shift) := by
        rw [readVarintAux, hu]
        rfl
      rw [hstep] at h
      by_cases hb : b < 128
      · rw [if_pos hb] at h
        exact Except.noConfusion h
      · rw [if_neg hb] at h
        exact ih r1 (shift + 7) _ e h

/-- A failing `read_varint64` is the typed `MalformedInput` error. -/
theorem readVarint_error (bytes : List Nat) (r : BytesReader) (e : Failure)
    (h : readVarint bytes r = .error e) : e = .err .MalformedInput :=
  readVarintAux_error bytes 10 r 0 0 e h

/-- A failing `read_varint32` is the typed `MalformedInput` error. -/
theorem readVarint32_error (bytes : List Nat) (r : BytesReader) (e : Failure)
    (h : readVarint32 bytes r = .error e) : e = .err .MalformedInput := by
  cases hv : readVarint bytes r with
  | error e1 =>
    have hstep : readVarint32 bytes r = .error e1 := by rw [readVarint32, hv]; rfl
    rw [hstep] at h
    obtain rfl := Except.error.inj h
    exact readVarint_error bytes r _ hv
  | ok p =>
    obtain ⟨n, r1⟩ := p
    have hstep : readVarint32 bytes r = .ok (n % 2 ^ 32, r1) := by
      rw [readVarint32, hv]
      rfl
    rw [hstep] at h
    exact Except.noConfusion h

/-- A failing `next_tag` is the typed `MalformedInput` error. -/
theorem next_tag_error (bytes : List Nat) (r : BytesReader) (e : Failure)
    (h : next_tag bytes r = .error e) : e = .err .MalformedInput :=
  readVarint32_error bytes r e h

/-- A failing fixed-width read is the typed `MalformedInput` error. -/
theorem readFixed_error (bytes : List Nat) (r : BytesReader) (n : Nat) (e : Failure)
    (h : readFixed bytes r n = .error e) : e = .err .MalformedInput := by
  unfold readFixed at h
  split at h
  · exact Except.noConfusion h
  · exact (Except.error.inj h).symm

/-- A failing `read_bytes` is the typed `MalformedInput` error. -/
theorem read_bytes_error (bytes : List Nat) (r : BytesReader) (e : Failure)
    (h : read_bytes bytes r = .error e) : e = .err .MalformedInput := by
  cases hv : readVarint32 bytes r with
  | error e1 =>
    have hstep : read_bytes bytes r = .error e1 := by rw [read_bytes, hv]; rfl
    rw [hstep] at h
    obtain rfl := Except.error.inj h
    exact readVarint32_error bytes r _ hv
  | ok p =>
    obtain ⟨len, r1⟩ := p
    have hstep : read_bytes bytes r =
        if r1.start + len ≤ r1.endPos
        then .ok ((bytes.drop r1.start).take len, ⟨r1.start + len, r1.endPos⟩)
        else .error (.err .MalformedInput) := by
      rw [read_bytes, hv]
      rfl
    rw [hstep] at h
    split at h
    · exact Except.noConfusion h
    · exact (Except.error.inj h).symm

/-- A failing `read_unknown` skip is the typed `MalformedInput` error
(whatever the wire type, including the unsupported ones). -/
theorem read_unknown_error (bytes : List Nat) (r : BytesReader) (tag : Nat)
    (e : Failure) (h : read_unknown bytes r tag = .error e) :
    e = .err .MalformedInput := by
  unfold read_unknown at h
  generalize hm : tag % 8 = m at h
  have hm8 : m < 8 := hm ▸ Nat.mod_lt _ (by norm_num)
  interval_cases m <;> dsimp only at h
  all_goals first
    | exact (Except.error.inj h).symm
    | (cases hv : readVarint bytes r with
       | error e1 =>
         rw [hv] at h
         obtain rfl := Except.error.inj h
         exact readVarint_error bytes r _ hv
       | ok p =>
         obtain ⟨x, r1⟩ := p
         rw [hv] at h
         exact Except.noConfusion h)
    | (cases hv : read_fixed64 bytes r with
       | error e1 =>
         rw [hv] at h
         obtain rfl := Except.error.inj h
         exact readFixed_error bytes r 8 _ hv
       | ok p =>
         obtain ⟨x, r1⟩ := p
         rw [hv] at h
         exact Except.noConfusion h)
    | (cases hv : read_bytes bytes r with
       | error e1 =>
         rw [hv] at h
         obtain rfl := Except.error.inj h
         exact read_bytes_error bytes r _ hv
       | ok p =>
         obtain ⟨x, r1⟩ := p
         rw [hv] at h
         exact Except.noConfusion h)
    | (cases hv : read_fixed32 bytes r with
       | error e1 =>
         rw [hv] at h
         obtain rfl := Except.error.inj h
         exact readFixed_error bytes r 4 _ hv
       | ok p =>
         obtain ⟨x, r1⟩ := p
         rw [hv] at h
         exact Except.noConfusion h)

/-- Every failure of a single-value decode is a typed decode error
(`Err`), never a panic: either the type-level errors for unresolved
types and groups, or the reader's `MalformedInput`. -/
theorem parse_value_error_typed (r : BytesReader) (bytes : List Nat) :
    ∀ (t : FieldType) (e : Failure),
      SingleFieldValue.parse_from_reader r bytes t = .error e →
      ∃ de, e = .err de := by
  intro t e h
  cases t
  all_goals first
    | exact ⟨_, (Except.error.inj h).symm⟩
    | (cases hv : readVarint bytes r with
       | error e1 =>
         rw [SingleFieldValue.parse_from_reader, hv] at h
         obtain rfl := Except.error.inj h
         exact ⟨.MalformedInput, readVarint_error bytes r _ hv⟩
       | ok p =>
         obtain ⟨n, r1⟩ := p
         rw [SingleFieldValue.parse_from_reader, hv] at h
         exact Except.noConfusion h)
    | (cases hv : readVarint32 bytes r with
       | error e1 =>
         rw [SingleFieldValue.parse_from_reader, hv] at h
         obtain rfl := Except.error.inj h
         exact ⟨.MalformedInput, readVarint32_error bytes r _ hv⟩
       | ok p =>
         obtain ⟨n, r1⟩ := p
         rw [SingleFieldValue.parse_from_reader, hv] at h
         exact Except.noConfusion h)
    | (cases hv : read_fixed64 bytes r with
       | error e1 =>
         rw [SingleFieldValue.parse_from_reader, hv] at h
         obtain rfl := Except.error.inj h
         exact ⟨.MalformedInput, readFixed_error bytes r 8 _ hv⟩
       | ok p =>
         obtain ⟨n, r1⟩ := p
         rw [SingleFieldValue.parse_from_reader, hv] at h
         exact Except.noConfusion h)
    | (cases hv : read_fixed32 bytes r with
       | error e1 =>
         rw [SingleFieldValue.parse_from_reader, hv] at h
         obtain rfl := Except.error.inj h
         exact ⟨.MalformedInput, readFixed_error bytes r 4 _ hv⟩
       | ok p =>
         obtain ⟨n, r1⟩ := p
         rw [SingleFieldValue.parse_from_reader, hv] at h
         exact Except.noConfusion h)
    | (cases hv : read_bytes bytes r with
       | error e1 =>
         rw [SingleFieldValue.parse_from_reader, hv] at h
         obtain rfl := Except.error.inj h
         exact ⟨.MalformedInput, read_bytes_error bytes r _ hv⟩
       | ok p =>
         obtain ⟨s, r1⟩ := p
         rw [SingleFieldValue.parse_from_reader, hv] at h
         exact Except.noConfusion h)

/-- Every failure of the scan loop is either the fuel artifact of the
embedding or a typed decode error propagated from the reader — the loop
never produces a panic. -/
theorem parseLoop_error_typed (cmds : CurrentMessageDescriptors) (bytes : List Nat) :
    ∀ fuel reader singles reps pool e pool',
      parseLoop cmds bytes fuel reader singles reps pool = (.error e, pool') →
      e = .outOfFuel ∨ ∃ de, e = .err de := by
  intro fuel
  induction fuel with
  | zero =>
    intro reader singles reps pool e pool' heq
    cases he : reader.is_eof with
    | true =>
      rw [parseLoop_eof cmds bytes 0 reader singles reps pool he] at heq
      simp at heq
    | false =>
      have hstep : parseLoop cmds bytes 0 reader singles reps pool =
          (.error .outOfFuel, pool) := by simp [parseLoop, he]
      rw [hstep] at heq
      simp only [Prod.mk.injEq] at heq
      exact .inl (Except.error.inj heq.1).symm
  | succ fuel ih =>
    intro reader singles reps pool e pool' heq
    cases he : reader.is_eof with
    | true =>
      rw [parseLoop_eof cmds bytes _ reader singles reps pool he] at heq
      simp at heq
    | false =>
      cases ht : next_tag bytes reader with
      | error e1 =>
        rw [parseLoop_tag_error cmds bytes fuel reader singles reps pool e1 he ht] at heq
        simp only [Prod.mk.injEq] at heq
        obtain rfl := Except.error.inj heq.1
        exact .inr ⟨.MalformedInput, next_tag_error bytes reader _ ht⟩
      | ok tr =>
        obtain ⟨tag, r1⟩ := tr
        cases hfind : cmds.current_descriptor.fields.find?
            (fun f => f.number == ((tag >>> 3 : Nat) : Int)) with
        | none =>
          cases hskip : read_unknown bytes r1 tag with
          | error e1 =>
            rw [parseLoop_unknown_error cmds bytes fuel reader singles reps pool
              tag r1 e1 he ht hfind hskip] at heq
            simp only [Prod.mk.injEq] at heq
            obtain rfl := Except.error.inj heq.1
            exact .inr ⟨.MalformedInput, read_unknown_error bytes r1 tag _ hskip⟩
          | ok r2 =>
            rw [parseLoop_unknown_step cmds bytes fuel reader singles reps pool
              tag r1 r2 he ht hfind hskip] at heq
            exact ih _ _ _ _ _ _ heq
        | some d =>
          cases hval : SingleFieldValue.parse_from_reader r1 bytes
              (d.field_type cmds.all_descriptors) with
          | error e1 =>
            rw [parseLoop_value_error cmds bytes fuel reader singles reps pool
              tag r1 d e1 he ht hfind hval] at heq
            simp only [Prod.mk.injEq] at heq
            obtain rfl := Except.error.inj heq.1
            exact .inr (parse_value_error_typed r1 bytes _ _ hval)
          | ok vr =>
            obtain ⟨value, r2⟩ := vr
            cases hrep : d.is_repeated with
            | false =>
              rw [parseLoop_single_step cmds bytes fuel reader singles reps pool
                tag r1 r2 d value he ht hfind hval hrep] at heq
              exact ih _ _ _ _ _ _ heq
            | true =>
              cases hpush : pushToFirstMatch (tag >>> 3) value reps with
              | some reps2 =>
                rw [parseLoop_repeated_push_step cmds bytes fuel reader singles
                  reps reps2 pool tag r1 r2 d value he ht hfind hval hrep hpush] at heq
                exact ih _ _ _ _ _ _ heq
              | none =>
                rw [parseLoop_repeated_new_step cmds bytes fuel reader singles
                  reps pool tag r1 r2 d value he ht hfind hval hrep hpush] at heq
                exact ih _ _ _ _ _ _ heq

/-- When seeding succeeds, every failure of the whole message parse is
the fuel artifact or a typed decode error returned to the caller — the
wire-parsing phase never panics. -/
theorem parse_from_reader_error_typed (fuel : Nat) (reader : BytesReader)
    (bytes : List Nat) (cmds : CurrentMessageDescriptors) (pool : ArrayPool)
    (seeded : List (Field SingleFieldValue)) (e : Failure) (pool' : ArrayPool)
    (hseed : seedSingles cmds.all_descriptors cmds.current_descriptor.fields =
      .ok seeded)
    (h : LazliyParsedMessage.parse_from_reader fuel reader bytes cmds pool =
      (.error e, pool')) :
    e = .outOfFuel ∨ ∃ de, e = .err de := by
  simp only [LazliyParsedMessage.parse_from_reader, ArrayPool.get_field_vec,
    ArrayPool.get_repeated_field_vec, List.nil_append] at h
  rw [hseed] at h
  rcases hsr : seedRepeated ((pool.get_field_vec).2.get_repeated_field_vec).2
      cmds.current_descriptor.fields with ⟨reps0, pool3⟩
  simp only [ArrayPool.get_field_vec, ArrayPool.get_repeated_field_vec] at hsr
  rw [hsr] at h
  dsimp only at h
  rcases hpl : parseLoop cmds bytes fuel reader seeded reps0 pool3 with ⟨res, pool4⟩
  rw [hpl] at h
  cases res with
  | ok tri => simp at h
  | error e2 =>
    dsimp only at h
    simp only [Prod.mk.injEq] at h
    obtain rfl := Except.error.inj h.1
    exact parseLoop_error_typed cmds bytes fuel reader seeded reps0 pool3 _ _ hpl

/-- Counterexample to C7 as stated: a message declaring an optional field
of unresolved message type, decoded from the empty input (so the field is
only seeded with its default), SUCCEEDS — no typed decode error is
returned even though an unresolved type is referenced by a declared
field. -/
theorem c7_unresolved_counterexample :
    (innerDeserializeAny 2 exUnresDs exUnresMsg [] ArrayPool.new).1 =
      .ok (.mapV [("a", .someV .noneV)]) ∧
    ∀ e, (Except.ok (VisitValue.mapV [("a", .someV .noneV)]) :
      Except Failure VisitValue) ≠ .error e :=
  ⟨rfl, fun _ hcon => Except.noConfusion hcon⟩

/-- C7 amended: an unresolved-message, unresolved-enum or group-encoded
field OCCURRING ON THE WIRE fails the decode with a typed error, and
malformed wire data likewise surfaces as the typed `MalformedInput`
error returned to the caller, never as a panic — every reader-primitive
failure is that typed error, every single-value decode failure is typed,
and the scan loop and (when seeding succeeds) the whole message parse
propagate such failures without ever panicking.  But a field of
unresolved type that is absent from the wire causes no failure at all
when its label is optional (it is seeded with `Null` before its type is
ever examined), and aborts with a `panic!`, not a typed error, when it
is non-optional and has no explicit default — for unresolved message and
unresolved enum types alike. -/
theorem c7_unresolved_typed_errors :
    (∀ (r : BytesReader) (bytes : List Nat) (name : String),
      SingleFieldValue.parse_from_reader r bytes (.UnresolvedMessage name) =
        .error (.err (.UnknownMessage name))) ∧
    (∀ (r : BytesReader) (bytes : List Nat) (name : String),
      SingleFieldValue.parse_from_reader r bytes (.UnresolvedEnum name) =
        .error (.err (.UnknownEnum name))) ∧
    (∀ (r : BytesReader) (bytes : List Nat),
      SingleFieldValue.parse_from_reader r bytes .Group =
        .error (.err (.Custom "Groups are not supported"))) ∧
    (∀ (bytes : List Nat) (r : BytesReader) (e : Failure),
      next_tag bytes r = .error e → e = .err .MalformedInput) ∧
    (∀ (bytes : List Nat) (r : BytesReader) (tag : Nat) (e : Failure),
      read_unknown bytes r tag = .error e → e = .err .MalformedInput) ∧
    (∀ (r : BytesReader) (bytes : List Nat) (t : FieldType) (e : Failure),
      SingleFieldValue.parse_from_reader r bytes t = .error e →
      ∃ de, e = .err de) ∧
    (∀ (cmds : CurrentMessageDescriptors) (bytes : List Nat) (fuel : Nat)
        (reader : BytesReader) (singles : List (Field SingleFieldValue))
        (reps : List (Field RepeatedFieldValue)) (pool : ArrayPool)
        (e : Failure) (pool' : ArrayPool),
      parseLoop cmds bytes fuel reader singles reps pool = (.error e, pool') →
      e = .outOfFuel ∨ ∃ de, e = .err de) ∧
    (∀ (fuel : Nat) (reader : BytesReader) (bytes : List Nat)
        (cmds : CurrentMessageDescriptors) (pool : ArrayPool)
        (seeded : List (Field SingleFieldValue)) (e : Failure) (pool' : ArrayPool),
      seedSingles cmds.all_descriptors cmds.current_descriptor.fields = .ok seeded →
      LazliyParsedMessage.parse_from_reader fuel reader bytes cmds pool =
        (.error e, pool') →
      e = .outOfFuel ∨ ∃ de, e = .err de) ∧
    (∀ (d : FieldDescriptor) (ds : Descriptors) (name : String),
      d.default_value = none → d.field_label ≠ .Optional →
      d.typeRef = .UnresolvedMessage name →
      compute_default_value_for_field d ds =
        .error (.panicked "unresolved message default value")) ∧
    (∀ (d : FieldDescriptor) (ds : Descriptors) (name : String),
      d.default_value = none → d.field_label ≠ .Optional →
      d.typeRef = .UnresolvedEnum name →
      compute_default_value_for_field d ds =
        .error (.panicked "unresolved enum default value")) ∧
    (∀ (d : FieldDescriptor) (ds : Descriptors),
      d.default_value = none → d.field_label = .Optional →
      ∃ fd, compute_default_value_for_field d ds = .ok fd ∧
        fd.value = .Null) := by
  refine ⟨fun _ _ _ => rfl, fun _ _ _ => rfl, fun _ _ => rfl,
    next_tag_error, read_unknown_error, parse_value_error_typed,
    parseLoop_error_typed, parse_from_reader_error_typed, ?_, ?_, ?_⟩
  · intro d ds name hdv hlab htr
    simp only [compute_default_value_for_field, FieldDescriptor.default_value, hdv,
      FieldDescriptor.field_type, htr]
    rw [if_neg hlab, show d.defaultValue = none from hdv]
  · intro d ds name hdv hlab htr
    simp only [compute_default_value_for_field, FieldDescriptor.default_value, hdv,
      FieldDescriptor.field_type, htr]
    rw [if_neg hlab, show d.defaultValue = none from hdv]
  · intro d ds hdv hlab
    refine ⟨⟨d, .Null, u32cast d.number⟩, ?_, rfl⟩
    simp only [compute_default_value_for_field, FieldDescriptor.default_value, hdv]
    rw [if_pos hlab, show d.defaultValue = none from hdv]

/-- Witness for C7 amended: the truncated varint `[0x80]` makes
`next_tag`, the scan loop and the whole parse fail with the typed
`MalformedInput` error (never a panic), wire type 3 fails the unknown
skip the same way, a value decode on empty input fails typed; seeding a
non-optional defaultless field of unresolved message (resp. enum) type
panics, while the optional one is seeded `Null` without any failure. -/
theorem c7_unresolved_typed_errors_witness :
    ((.err .MalformedInput : Failure) = .err .MalformedInput) ∧
    ((.err .MalformedInput : Failure) = .err .MalformedInput) ∧
    (∃ de, (.err .MalformedInput : Failure) = .err de) ∧
    ((.err .MalformedInput : Failure) = .outOfFuel ∨
      ∃ de, (.err .MalformedInput : Failure) = .err de) ∧
    ((.err .MalformedInput : Failure) = .outOfFuel ∨
      ∃ de, (.err .MalformedInput : Failure) = .err de) ∧
    compute_default_value_for_field
        ⟨1, "a", .Required, .UnresolvedMessage "M", none⟩ exUnresDs =
      .error (.panicked "unresolved message default value") ∧
    compute_default_value_for_field
        ⟨1, "a", .Required, .UnresolvedEnum "E", none⟩ exUnresDs =
      .error (.panicked "unresolved enum default value") ∧
    ∃ fd, compute_default_value_for_field exUnresField exUnresDs = .ok fd ∧
      fd.value = SingleFieldValue.Null :=
  ⟨c7_unresolved_typed_errors.2.2.2.1 [128] (BytesReader.from_bytes [128])
      (.err .MalformedInput) rfl,
    c7_unresolved_typed_errors.2.2.2.2.1 [] (BytesReader.from_bytes []) 3
      (.err .MalformedInput) rfl,
    c7_unresolved_typed_errors.2.2.2.2.2.1 (BytesReader.from_bytes []) []
      .Int32 (.err .MalformedInput) rfl,
    c7_unresolved_typed_errors.2.2.2.2.2.2.1 ⟨exInt32Msg, exInt32Ds⟩ [128] 1
      (BytesReader.from_bytes [128]) [] [] ArrayPool.new
      (.err .MalformedInput) ArrayPool.new rfl,
    c7_unresolved_typed_errors.2.2.2.2.2.2.2.1 1 (BytesReader.from_bytes [128])
      [128] ⟨exInt32Msg, exInt32Ds⟩ ArrayPool.new [⟨exInt32Field, .I32 0, 1⟩]
      (.err .MalformedInput) ⟨0, 0, 0, 0, 0, 1, 0, 1, 0⟩ rfl rfl,
    c7_unresolved_typed_errors.2.2.2.2.2.2.2.2.1
      ⟨1, "a", .Required, .UnresolvedMessage "M", none⟩ exUnresDs "M"
      rfl (by decide) rfl,
    c7_unresolved_typed_errors.2.2.2.2.2.2.2.2.2.1
      ⟨1, "a", .Required, .UnresolvedEnum "E", none⟩ exUnresDs "E"
      rfl (by decide) rfl,
    c7_unresolved_typed_errors.2.2.2.2.2.2.2.2.2.2 exUnresField exUnresDs rfl rfl⟩

/-- C8: visiting an enum-typed field value looks the stored number up in
the field's enum descriptor: a match surfaces exactly the symbolic name
string via `visit_str`, and an unmatched number fails with the typed
`UnknownEnumValue` error — in neither case is the raw number surfaced. -/
theorem c8_enum_fidelity (ds : Descriptors) (fd : FieldDescriptor) (idx : Nat)
    (e : Int) (h : fd.typeRef = .Enum idx) :
    (∀ ev, (ds.getEnum idx).value_by_number e = some ev →
      visit_enum_value e fd ds = .ok (.enumStr ev.name)) ∧
    ((ds.getEnum idx).value_by_number e = none →
      visit_enum_value e fd ds = .error (.err (.UnknownEnumValue e))) := by
  constructor
  · intro ev hev
    simp only [visit_enum_value, FieldDescriptor.field_type, h, hev]
  · intro hev
    simp only [visit_enum_value, FieldDescriptor.field_type, h, hev]

/-- Witness for C8: number 1 surfaces its symbol `ONE`; number 5 has no
match and fails with `UnknownEnumValue 5`. -/
theorem c8_enum_fidelity_witness :
    visit_enum_value 1 exEnumField exEnumDs = .ok (.enumStr "ONE") ∧
    visit_enum_value 5 exEnumField exEnumDs =
      .error (.err (.UnknownEnumValue 5)) :=
  ⟨(c8_enum_fidelity exEnumDs exEnumField 0 1 rfl).1 ⟨1, "ONE"⟩ rfl,
    (c8_enum_fidelity exEnumDs exEnumField 0 5 rfl).2 rfl⟩

/-- C9: a wire field whose number is not declared in the current message
descriptor is consumed and discarded: the scan loop skips its bytes per
wire type (via `read_unknown`) and continues on the remaining input
unchanged — so decoding succeeds when the rest of the input is well
formed — and on any successful decode every stored record, singular or
repeated, carries a declared field descriptor, so an unknown field is
never stored. -/
theorem c9_unknown_field_skipped :
    (∀ (cmds : CurrentMessageDescriptors) (bytes : List Nat) (fuel : Nat)
        (reader : BytesReader) (singles : List (Field SingleFieldValue))
        (reps : List (Field RepeatedFieldValue)) (pool : ArrayPool)
        (tag : Nat) (r1 r2 : BytesReader),
      reader.is_eof = false →
      next_tag bytes reader = .ok (tag, r1) →
      cmds.current_descriptor.fields.find?
        (fun f => f.number == ((tag >>> 3 : Nat) : Int)) = none →
      read_unknown bytes r1 tag = .ok r2 →
      parseLoop cmds bytes (fuel + 1) reader singles reps pool =
        parseLoop cmds bytes fuel r2 singles reps pool) ∧
    (∀ (fuel : Nat) (reader : BytesReader) (bytes : List Nat)
        (cmds : CurrentMessageDescriptors) (pool : ArrayPool)
        (msg : LazliyParsedMessage) (rd' : BytesReader) (pool' : ArrayPool),
      LazliyParsedMessage.parse_from_reader fuel reader bytes cmds pool =
        (.ok (msg, rd'), pool') →
      (∀ rec ∈ msg.single_fields,
        rec.descriptor ∈ cmds.current_descriptor.fields) ∧
      (∀ rec ∈ msg.repeated_fields,
        rec.descriptor ∈ cmds.current_descriptor.fields)) := by
  refine ⟨parseLoop_unknown_step, ?_⟩
  intro fuel reader bytes cmds pool msg rd' pool' h
  obtain ⟨seeded, reps0, pool3, raw, hseed, hseedr, hpl, hpost⟩ :=
    parse_from_reader_spec fuel reader bytes cmds pool msg rd' pool' h
  constructor
  · intro rec hrec
    rw [hpost] at hrec
    have hraw : rec ∈ raw := postpass_mem raw rec hrec
    obtain ⟨app, happ, hmem⟩ :=
      parseLoop_singles_spec cmds bytes fuel reader seeded reps0 pool3 _ _ _ _ hpl
    rw [happ] at hraw
    rcases List.mem_append.mp hraw with hin | hin
    · obtain ⟨f, hf, _, hcd, _⟩ :=
        seedSingles_records cmds.all_descriptors _ _ hseed rec hin
      rw [(compute_default_tag f cmds.all_descriptors rec hcd).2]
      exact hf
    · exact hmem rec hin
  · intro rec hrec
    obtain ⟨ds, hmap, hds⟩ :=
      parseLoop_reps_spec cmds bytes fuel reader seeded reps0 pool3 _ _ _ _ hpl
    have hmem : rec.descriptor ∈ msg.repeated_fields.map (fun f => f.descriptor) :=
      List.mem_map_of_mem _ hrec
    rw [hmap] at hmem
    rcases List.mem_append.mp hmem with hin | hin
    · have hsr := (seedRepeated_spec cmds.current_descriptor.fields
        ((pool.get_field_vec).2.get_repeated_field_vec).2).1
      rw [hseedr] at hsr
      rw [hsr] at hin
      exact List.mem_of_mem_filter hin
    · exact (hds _ hin).1

/-- Witness for C9: in `[16, 5, 8, 7]` the first tag is 16 — field
number 2, undeclared in `exInt32Msg` — so the loop skips its varint
payload `5` and resumes at offset 2; the whole decode succeeds, storing
only the declared field 1 with value 7. -/
theorem c9_unknown_field_skipped_witness :
    (parseLoop ⟨exInt32Msg, exInt32Ds⟩ [16, 5, 8, 7] (4 + 1)
        (BytesReader.from_bytes [16, 5, 8, 7]) [] [] ArrayPool.new =
      parseLoop ⟨exInt32Msg, exInt32Ds⟩ [16, 5, 8, 7] 4 ⟨2, 4⟩ [] []
        ArrayPool.new) ∧
    (∀ rec ∈ ([⟨exInt32Field, SingleFieldValue.I32 7, 1⟩] :
        List (Field SingleFieldValue)), rec.descriptor ∈ exInt32Msg.fields) ∧
    (∀ rec ∈ ([] : List (Field RepeatedFieldValue)),
      rec.descriptor ∈ exInt32Msg.fields) :=
  ⟨c9_unknown_field_skipped.1 ⟨exInt32Msg, exInt32Ds⟩ [16, 5, 8, 7] 4
      (BytesReader.from_bytes [16, 5, 8, 7]) [] [] ArrayPool.new 16 ⟨1, 4⟩
      ⟨2, 4⟩ rfl rfl rfl rfl,
    c9_unknown_field_skipped.2 5 (BytesReader.from_bytes [16, 5, 8, 7])
      [16, 5, 8, 7] ⟨exInt32Msg, exInt32Ds⟩ ArrayPool.new
      ⟨[⟨exInt32Field, .I32 7, 1⟩], []⟩ ⟨4, 4⟩
      ⟨0, 0, 0, 0, 0, 1, 0, 1, 0⟩ rfl⟩

/-- C10: every declared repeated field is pre-seeded with an empty pooled
record before scanning (the seeded records are exactly the declared
repeated fields, each with an empty value list); on any successful parse
no record is removed — each declared repeated field still owns a record,
and every repeated record belongs to a declared repeated field, so the
repeated keys equal the declared repeated field names as sets; the
traversal emits one key per record, the key being the declared name, and
a record with an empty stored list is emitted as the empty sequence. -/
theorem c10_repeated_empty_emitted :
    (∀ (fields : List FieldDescriptor) (pool : ArrayPool),
      (seedRepeated pool fields).1.map (fun f => f.descriptor) =
        fields.filter (fun f => f.is_repeated) ∧
      ∀ rec ∈ (seedRepeated pool fields).1, rec.value = []) ∧
    (∀ (fuel : Nat) (reader : BytesReader) (bytes : List Nat)
        (cmds : CurrentMessageDescriptors) (pool : ArrayPool)
        (msg : LazliyParsedMessage) (rd' : BytesReader) (pool' : ArrayPool),
      LazliyParsedMessage.parse_from_reader fuel reader bytes cmds pool =
        (.ok (msg, rd'), pool') →
      (∀ d ∈ cmds.current_descriptor.fields, d.is_repeated = true →
        ∃ rec ∈ msg.repeated_fields, rec.descriptor = d) ∧
      (∀ rec ∈ msg.repeated_fields,
        rec.descriptor ∈ cmds.current_descriptor.fields ∧
          rec.descriptor.is_repeated = true)) ∧
    (∀ (visit : FieldDescriptor → SingleFieldValue → ArrayPool →
        Except Failure VisitValue × ArrayPool)
        (singles : List (Field SingleFieldValue))
        (reps : List (Field RepeatedFieldValue)) (pool : ArrayPool)
        (es : List (String × VisitValue)) (pool' : ArrayPool),
      fieldsFold visit singles reps pool = (.ok es, pool') →
      es.map Prod.fst =
        singles.map (fun f => f.descriptor.name) ++
          reps.map (fun f => f.descriptor.name)) ∧
    (∀ (visit : FieldDescriptor → SingleFieldValue → ArrayPool →
        Except Failure VisitValue × ArrayPool)
        (r : Field RepeatedFieldValue)
        (repeateds : List (Field RepeatedFieldValue)) (pool : ArrayPool),
      r.value = [] →
      repsFold visit (r :: repeateds) pool =
        match repsFold visit repeateds (pool.return_single_field_val_vec []) with
        | (.error e, p) => (.error e, p)
        | (.ok entries, p) =>
          (.ok ((r.descriptor.name, VisitValue.seqV []) :: entries), p)) := by
  refine ⟨?_, ?_, fieldsFold_keys, ?_⟩
  · intro fields pool
    exact ⟨(seedRepeated_spec fields pool).1,
      fun rec h => ((seedRepeated_spec fields pool).2.1 rec h).1⟩
  · intro fuel reader bytes cmds pool msg rd' pool' h
    obtain ⟨seeded, reps0, pool3, raw, hseed, hseedr, hpl, hpost⟩ :=
      parse_from_reader_spec fuel reader bytes cmds pool msg rd' pool' h
    obtain ⟨ds, hmap, hds⟩ :=
      parseLoop_reps_spec cmds bytes fuel reader seeded reps0 pool3 _ _ _ _ hpl
    have hsr := (seedRepeated_spec cmds.current_descriptor.fields
      ((pool.get_field_vec).2.get_repeated_field_vec).2).1
    rw [hseedr] at hsr
    constructor
    · intro d hd hdrep
      have hdf : d ∈ reps0.map (fun f => f.descriptor) := by
        rw [hsr]
        exact List.mem_filter.mpr ⟨hd, hdrep⟩
      have : d ∈ msg.repeated_fields.map (fun f => f.descriptor) := by
        rw [hmap]
        exact List.mem_append_left ds hdf
      obtain ⟨rec, hrec, hrecd⟩ := List.mem_map.mp this
      exact ⟨rec, hrec, hrecd⟩
    · intro rec hrec
      have hmem : rec.descriptor ∈ msg.repeated_fields.map (fun f => f.descriptor) :=
        List.mem_map_of_mem _ hrec
      rw [hmap] at hmem
      rcases List.mem_append.mp hmem with hin | hin
      · rw [hsr] at hin
        exact ⟨List.mem_of_mem_filter hin, List.of_mem_filter hin⟩
      · exact hds _ hin
  · intro visit r repeateds pool hv
    rcases r with ⟨d, v, t⟩
    dsimp only at hv
    subst hv
    rcases hres : repsFold visit repeateds (pool.return_single_field_val_vec []) with
      ⟨res, p⟩
    cases res <;> simp [repsFold, seqFold, hres]

/-- Witness for C10: with `exRepMsg` (one repeated field `r`) and an
empty input, the seeded record survives to the parse result with an
empty value and the full traversal emits the key `r` bound to the empty
sequence. -/
theorem c10_repeated_empty_emitted_witness :
    (LazliyParsedMessage.parse_from_reader 1 (BytesReader.from_bytes []) []
        ⟨exRepMsg, exRepDs⟩ ArrayPool.new =
      (.ok (⟨[], [⟨exRepField, [], 1⟩]⟩, ⟨0, 0⟩), ⟨0, 0, 0, 1, 0, 1, 0, 1, 0⟩)) ∧
    ((∀ d ∈ exRepMsg.fields, d.is_repeated = true →
        ∃ rec ∈ ([⟨exRepField, [], 1⟩] : List (Field RepeatedFieldValue)),
          rec.descriptor = d) ∧
      (∀ rec ∈ ([⟨exRepField, [], 1⟩] : List (Field RepeatedFieldValue)),
        rec.descriptor ∈ exRepMsg.fields ∧ rec.descriptor.is_repeated = true)) ∧
    (fieldsFold (visitValue 0 exRepDs) [] [⟨exRepField, [], 1⟩] ArrayPool.new =
      (.ok [("r", VisitValue.seqV [])], ⟨1, 0, 0, 0, 1, 0, 0, 0, 0⟩)) ∧
    (([("r", VisitValue.seqV [])] :
        List (String × VisitValue)).map Prod.fst =
      ([] : List (Field SingleFieldValue)).map (fun f => f.descriptor.name) ++
        ([⟨exRepField, [], 1⟩] :
          List (Field RepeatedFieldValue)).map (fun f => f.descriptor.name)) ∧
    (repsFold (visitValue 0 exRepDs) [⟨exRepField, [], 1⟩] ArrayPool.new =
      match repsFold (visitValue 0 exRepDs) []
          (ArrayPool.new.return_single_field_val_vec []) with
      | (.error e, p) => (.error e, p)
      | (.ok entries, p) =>
        (.ok (((⟨exRepField, [], 1⟩ : Field RepeatedFieldValue).descriptor.name,
          VisitValue.seqV []) :: entries), p)) :=
  ⟨rfl,
    c10_repeated_empty_emitted.2.1 1 (BytesReader.from_bytes []) []
      ⟨exRepMsg, exRepDs⟩ ArrayPool.new ⟨[], [⟨exRepField, [], 1⟩]⟩ ⟨0, 0⟩
      ⟨0, 0, 0, 1, 0, 1, 0, 1, 0⟩ rfl,
    rfl,
    c10_repeated_empty_emitted.2.2.1 (visitValue 0 exRepDs) []
      [⟨exRepField, [], 1⟩] ArrayPool.new [("r", VisitValue.seqV [])]
      ⟨1, 0, 0, 0, 1, 0, 0, 0, 0⟩ rfl,
    c10_repeated_empty_emitted.2.2.2 (visitValue 0 exRepDs) ⟨exRepField, [], 1⟩
      [] ArrayPool.new rfl⟩

end SerdeProtobuf
